import Mathlib

/-!
# Verification of the SecureVoting tallier core

A shallow embedding, in Lean 4, of the parts of the `SecureVoting`
repository that the specification's claims are about:

* `src/tallier/utils.py` — Shamir share generation (`clean_gen_shamir`),
  Lagrange reconstruction (`resolve`), Gauss–Jordan matrix inversion
  modulo `p` (`inverse`);
* `src/tallier/mpc.py` — the MPC multiplication variants
  (`bgw_multiply`, `rnd_multiply`), `is_zero`, plurality validation,
  the maximin validation dispatch, and the `min`/`max` reductions;
* `src/tallier/mpc_manager.py` — the per-msgid inbound demultiplexer,
  the vector channel `write` framing, and the dial loop of
  `start_clique`.

Python's arbitrary-precision integers are modelled as `Nat`/`Int` with
explicit `% p` reductions exactly where the source reduces; fallible
code (Python exceptions) returns `Option`.  Network exchanges between
the `D` talliers are modelled functionally: a protocol round is a
function from every tallier's local state and local randomness to every
tallier's result, which is exactly the data flow realised by the
`exchange` helpers in the source.  Random samples drawn by the source
(`random.choices`, `randint`) are universally quantified explicit
arguments.
-/

set_option maxRecDepth 100000

namespace SecureVoting

/-- Python's `%` on a possibly negative `int` with a positive modulus:
the canonical non-negative representative.  Used wherever the source
writes `x % p` on an `Int`-valued expression. -/
def pymod (a : Int) (p : Nat) : Nat := (a % (p : Int)).toNat

/-- Python's `pow(a, -1, p)`: the modular inverse of `a` modulo `p` when
it exists, `none` when Python would raise `ValueError` ("base is not
invertible for the given modulus").  The inverse, when it exists, is the
unique `b < p` with `a * b % p = 1`; we model it by direct search, which
returns exactly that representative. -/
def modInv (a p : Nat) : Option Nat := (List.range p).find? (fun b => a * b % p == 1)

/-- `utils.clean_gen_shamir` (utils.py:21-23).  The `threshold - 1`
uniform samples `choices(range(p), k=threshold-1)` are passed in
explicitly as `rand`; the coefficient list is `a_i = [value] + rand`
truncated to `threshold` entries, and share `x` (for `x = 0..key_count-1`)
is `sum(a * pow(x+1, i, p) for i, a in enumerate(a_i)) % p`. -/
def clean_gen_shamir (value key_count threshold p : Nat) (rand : List Nat) : List Nat :=
  let a_i : List Nat := value :: rand.take (threshold - 1)
  (List.range key_count).map (fun x =>
    (∑ i in Finset.range a_i.length, a_i.getD i 0 * ((x + 1) ^ i % p)) % p)

/-- The `c1` accumulator of `utils.resolve` (utils.py:31-40) for the
point with 1-based index `i + 1` out of `n` points: the product of all
other x-coordinates (plain integers, not reduced modulo `p`, exactly as
in the source). -/
def resolveC1 (n i : Nat) : Nat := ∏ j in (Finset.range n).erase i, (j + 1)

/-- The `c2` accumulator of `utils.resolve` for the point with 1-based
index `i + 1`: the product of `(x_j - x_i) % p` over the other points
(each factor reduced modulo `p`, as in the source). -/
def resolveC2 (n i p : Nat) : Nat :=
  ∏ j in (Finset.range n).erase i, pymod ((j : Int) - (i : Int)) p

/-- Evaluate a fallible term for every element in order, failing on the
first failure — the behaviour of the generator inside `sum(...)` in
`utils.resolve`, where a raised `ValueError` aborts the whole sum. -/
def mapMO {α β : Type} (f : α → Option β) : List α → Option (List β)
  | [] => some []
  | a :: l => (f a).bind fun b => (mapMO f l).map (b :: ·)

/-- `utils.resolve` (utils.py:31-40): Lagrange interpolation at 0 of the
points `(1, keys[0]), ..., (n, keys[n-1])`.  Each term is
`c1 * pow(c2, -1, p) * y_i % p`; `none` models the `ValueError` raised
by `pow` when some `c2` is not invertible modulo `p`. -/
def resolve (keys : List Nat) (p : Nat) : Option Nat :=
  let n := keys.length
  (mapMO (fun i =>
      (modInv (resolveC2 n i p) p).map (fun iv => resolveC1 n i * iv * keys.getD i 0 % p))
    (List.range n)).map (fun terms => terms.sum % p)

example : clean_gen_shamir 5 3 2 11 [7] = [1, 8, 4] := by decide
example : resolve [1, 8, 4] 11 = some 5 := by decide
example : resolve (clean_gen_shamir 0 3 2 2 []) 2 = none := by decide

/-! ## Arithmetic bridging lemmas -/

theorem pymod_lt {p : Nat} (a : Int) (hp : 0 < p) : pymod a p < p := by
  have h := Int.emod_lt_of_pos a (b := (p : Int)) (by exact_mod_cast hp)
  have h0 : (0 : Int) ≤ a % (p : Int) := Int.emod_nonneg a (by positivity)
  unfold pymod
  omega

theorem pymod_cast {p : Nat} [NeZero p] (a : Int) :
    ((pymod a p : Nat) : ZMod p) = (a : ZMod p) := by
  have h0 : (0 : Int) ≤ a % (p : Int) := by
    apply Int.emod_nonneg a
    exact_mod_cast NeZero.ne p
  have h1 : ((pymod a p : Nat) : Int) = a % (p : Int) := by
    unfold pymod; omega
  have h2 : (((pymod a p : Nat) : Int) : ZMod p) = ((a % (p : Int) : Int) : ZMod p) := by
    rw [h1]
  rw [Int.cast_natCast] at h2
  rw [h2, ZMod.intCast_mod]

theorem modInv_spec {p a b : Nat} (h : modInv a p = some b) : a * b % p = 1 := by
  have := List.find?_some h
  simpa using this

theorem modInv_isSome {p : Nat} [hp : Fact (Nat.Prime p)] {a : Nat}
    (ha : (a : ZMod p) ≠ 0) : ∃ b, modInv a p = some b := by
  haveI : NeZero p := ⟨hp.out.ne_zero⟩
  have hlt : ((a : ZMod p)⁻¹).val < p := ZMod.val_lt _
  have hmul : a * ((a : ZMod p)⁻¹).val % p = 1 := by
    have hc : ((a * ((a : ZMod p)⁻¹).val : Nat) : ZMod p) = 1 := by
      push_cast
      rw [ZMod.natCast_val, ZMod.cast_id]
      exact mul_inv_cancel₀ ha
    have := congrArg ZMod.val hc
    rwa [ZMod.val_natCast, ZMod.val_one] at this
  have hsome : (modInv a p).isSome := by
    rw [modInv, List.find?_isSome]
    exact ⟨((a : ZMod p)⁻¹).val, List.mem_range.mpr hlt, by simpa using hmul⟩
  exact Option.isSome_iff_exists.mp hsome

theorem mapMO_eq_map {α β : Type} (f : α → Option β) (g : α → β) :
    ∀ l : List α, (∀ a ∈ l, f a = some (g a)) → mapMO f l = some (l.map g)
  | [], _ => rfl
  | a :: l, h => by
    rw [mapMO, h a (List.mem_cons_self a l),
      mapMO_eq_map f g l (fun x hx => h x (List.mem_cons_of_mem a hx))]
    rfl

theorem sum_map_range (f : Nat → Nat) : ∀ n, ((List.range n).map f).sum = ∑ i in Finset.range n, f i
  | 0 => rfl
  | n + 1 => by
    rw [List.range_succ, List.map_append, List.sum_append, Finset.sum_range_succ,
      sum_map_range f n]
    simp

/-! ## Lagrange interpolation at zero, in the code's form -/

/-- Over `ZMod p`, evaluating a polynomial of degree `< D` at `0` equals
the weighted sum of its values at the nodes `1..D` with the weights
computed by `utils.resolve`: `w_i = (∏ x_j) * (∏ (x_j - x_i))⁻¹`. -/
theorem lagrange_at_zero {p D : Nat} [hp : Fact (Nat.Prime p)] (hD : 0 < D) (hDp : D ≤ p)
    (f : Polynomial (ZMod p)) (hdeg : f.degree < (D : WithBot Nat)) :
    Polynomial.eval 0 f = ∑ i in Finset.range D,
      Polynomial.eval ((i : ZMod p) + 1) f *
        ((∏ j in (Finset.range D).erase i, ((j : ZMod p) + 1)) *
          (∏ j in (Finset.range D).erase i, ((j : ZMod p) - (i : ZMod p)))⁻¹) := by
  haveI : NeZero p := ⟨hp.out.ne_zero⟩
  set v : Nat → ZMod p := fun i => (i : ZMod p) + 1 with hv
  have hcastinj : ∀ i j : Nat, i < D → j < D → (i : ZMod p) = (j : ZMod p) → i = j := by
    intro i j hi hj hij
    have := congrArg ZMod.val hij
    rwa [ZMod.val_natCast_of_lt (lt_of_lt_of_le hi hDp),
      ZMod.val_natCast_of_lt (lt_of_lt_of_le hj hDp)] at this
  have hvs : Set.InjOn v (Finset.range D) := by
    intro i hi j hj hij
    simp only [Finset.coe_range, Set.mem_Iio] at hi hj
    exact hcastinj i j hi hj (by simpa [hv] using hij)
  have hinterp := Lagrange.eq_interpolate hvs
    (by rwa [Finset.card_range] : f.degree < ((Finset.range D).card : WithBot Nat))
  conv_lhs => rw [hinterp]
  rw [Lagrange.interpolate_apply, Polynomial.eval_finset_sum]
  refine Finset.sum_congr rfl (fun i hi => ?_)
  rw [Polynomial.eval_mul, Polynomial.eval_C]
  congr 1
  -- evaluate the Lagrange basis polynomial at 0
  rw [Lagrange.basis, Polynomial.eval_prod]
  have hterm : ∀ j ∈ (Finset.range D).erase i,
      Polynomial.eval 0 (Lagrange.basisDivisor (v i) (v j)) = v j * (v j - v i)⁻¹ := by
    intro j _
    have h1 : v i - v j = -(v j - v i) := by ring
    rw [Lagrange.basisDivisor, Polynomial.eval_mul, Polynomial.eval_C, Polynomial.eval_sub,
      Polynomial.eval_X, Polynomial.eval_C, h1, inv_neg]
    ring
  rw [Finset.prod_congr rfl hterm, Finset.prod_mul_distrib, Finset.prod_inv_distrib]
  have hsub : (∏ j in (Finset.range D).erase i, (v j - v i)) =
      ∏ j in (Finset.range D).erase i, ((j : ZMod p) - (i : ZMod p)) := by
    refine Finset.prod_congr rfl (fun j _ => ?_)
    show (j : ZMod p) + 1 - ((i : ZMod p) + 1) = (j : ZMod p) - (i : ZMod p)
    ring
  rw [hsub]

/-- Correctness of `utils.resolve`: applied to a list of `D` values whose
residues modulo `p` are the evaluations of a polynomial `f` of degree
`< D` at the nodes `1..D`, it succeeds and returns the canonical
representative of `f(0)`.  `D ≤ p` makes the nodes distinct modulo `p`
(for `p < D` the inner `pow(c2, -1, p)` raises instead). -/
theorem resolve_eval {p D : Nat} [hp : Fact (Nat.Prime p)] (hD : 0 < D) (hDp : D ≤ p)
    (f : Polynomial (ZMod p)) (hdeg : f.degree < (D : WithBot Nat))
    (keys : List Nat) (hlen : keys.length = D)
    (hk : ∀ i, i < D → ((keys.getD i 0 : Nat) : ZMod p) = Polynomial.eval ((i : ZMod p) + 1) f) :
    resolve keys p = some ((Polynomial.eval 0 f).val) := by
  haveI : NeZero p := ⟨hp.out.ne_zero⟩
  have hcastinj : ∀ i j : Nat, i < D → j < D → (i : ZMod p) = (j : ZMod p) → i = j := by
    intro i j hi hj hij
    have := congrArg ZMod.val hij
    rwa [ZMod.val_natCast_of_lt (lt_of_lt_of_le hi hDp),
      ZMod.val_natCast_of_lt (lt_of_lt_of_le hj hDp)] at this
  have hc2cast : ∀ i : Nat, ((resolveC2 D i p : Nat) : ZMod p) =
      ∏ j in (Finset.range D).erase i, ((j : ZMod p) - (i : ZMod p)) := by
    intro i
    rw [resolveC2, Nat.cast_prod]
    refine Finset.prod_congr rfl (fun j _ => ?_)
    rw [pymod_cast]
    push_cast
    ring
  have hc2ne : ∀ i : Nat, i < D → ((resolveC2 D i p : Nat) : ZMod p) ≠ 0 := by
    intro i hi
    rw [hc2cast]
    refine Finset.prod_ne_zero_iff.mpr (fun j hj => ?_)
    have hji := Finset.ne_of_mem_erase hj
    have hjD := Finset.mem_range.mp (Finset.mem_of_mem_erase hj)
    exact sub_ne_zero.mpr (fun hc => hji (hcastinj j i hjD hi hc))
  set g : Nat → Nat := fun i =>
    resolveC1 D i * (modInv (resolveC2 D i p) p).getD 0 * keys.getD i 0 % p with hg
  have hmap : mapMO (fun i =>
      (modInv (resolveC2 D i p) p).map
        (fun iv => resolveC1 D i * iv * keys.getD i 0 % p)) (List.range D) =
      some ((List.range D).map g) := by
    refine mapMO_eq_map _ g (List.range D) (fun i hi => ?_)
    obtain ⟨b, hb⟩ := modInv_isSome (hc2ne i (List.mem_range.mp hi))
    rw [hb, hg]
    simp [hb]
  have hres : resolve keys p = some ((∑ i in Finset.range D, g i) % p) := by
    rw [resolve, hlen, hmap, Option.map_some', sum_map_range]
  rw [hres]
  congr 1
  -- identify the sum with f(0) in ZMod p
  have hcast : (((∑ i in Finset.range D, g i) % p : Nat) : ZMod p) = Polynomial.eval 0 f := by
    rw [ZMod.natCast_mod, Nat.cast_sum]
    rw [lagrange_at_zero hD hDp f hdeg]
    refine Finset.sum_congr rfl (fun i hi => ?_)
    have hiD := Finset.mem_range.mp hi
    obtain ⟨b, hb⟩ := modInv_isSome (hc2ne i hiD)
    have hbval : ((resolveC2 D i p * b) : Nat) % p = 1 := modInv_spec hb
    have hbcast : (b : ZMod p) = ((resolveC2 D i p : Nat) : ZMod p)⁻¹ := by
      refine eq_inv_of_mul_eq_one_left ?_
      have := congrArg (fun x : Nat => ((x : Nat) : ZMod p)) hbval
      simp only [ZMod.natCast_mod, Nat.cast_mul, Nat.cast_one] at this
      rw [mul_comm] at this
      exact this
    have hc1cast : ((resolveC1 D i : Nat) : ZMod p) =
        ∏ j in (Finset.range D).erase i, ((j : ZMod p) + 1) := by
      rw [resolveC1, Nat.cast_prod]
      push_cast
      rfl
    rw [hg]
    simp only [ZMod.natCast_mod, Nat.cast_mul, hb, Option.getD_some]
    rw [hbcast, hc1cast, hc2cast, hk i hiD]
    ring
  have := congrArg ZMod.val hcast
  rwa [ZMod.val_natCast, Nat.mod_mod_of_dvd _ dvd_rfl] at this

/-! ## The sharing polynomial of `clean_gen_shamir` -/

/-- The polynomial over `ZMod p` with the given coefficient list in
ascending powers: the polynomial `f(X) = Σ a_i X^i` that
`clean_gen_shamir` evaluates at the points `1..key_count`. -/
noncomputable def polyOf (p : Nat) (l : List Nat) : Polynomial (ZMod p) :=
  ∑ i in Finset.range l.length, Polynomial.C ((l.getD i 0 : Nat) : ZMod p) * Polynomial.X ^ i

theorem polyOf_degree_lt {p D : Nat} (l : List Nat) (hl : l.length ≤ D) (hD : 0 < D) :
    (polyOf p l).degree < (D : WithBot Nat) := by
  refine lt_of_le_of_lt (Polynomial.degree_sum_le _ _) ?_
  refine (Finset.sup_lt_iff (by exact_mod_cast WithBot.bot_lt_coe D)).mpr ?_
  intro i hi
  refine lt_of_le_of_lt (Polynomial.degree_C_mul_X_pow_le _ _) ?_
  exact_mod_cast lt_of_lt_of_le (Finset.mem_range.mp hi) hl

theorem polyOf_eval {p : Nat} (l : List Nat) (x : ZMod p) :
    Polynomial.eval x (polyOf p l) =
      ∑ i in Finset.range l.length, ((l.getD i 0 : Nat) : ZMod p) * x ^ i := by
  rw [polyOf, Polynomial.eval_finset_sum]
  refine Finset.sum_congr rfl (fun i _ => ?_)
  rw [Polynomial.eval_mul, Polynomial.eval_C, Polynomial.eval_pow, Polynomial.eval_X]

theorem polyOf_eval_zero {p : Nat} (v : Nat) (r : List Nat) :
    Polynomial.eval 0 (polyOf p (v :: r)) = ((v : Nat) : ZMod p) := by
  rw [polyOf_eval]
  rw [Finset.sum_eq_single 0]
  · simp
  · intro i _ hi
    rw [zero_pow hi, mul_zero]
  · intro h
    exact absurd (Finset.mem_range.mpr (Nat.succ_pos _)) h

theorem getD_map_range (f : Nat → Nat) {x n : Nat} (hx : x < n) :
    ((List.range n).map f).getD x 0 = f x := by
  rw [List.getD_eq_getElem?_getD, List.getElem?_map, List.getElem?_range hx]
  rfl

theorem clean_gen_shamir_length (value key_count threshold p : Nat) (rand : List Nat) :
    (clean_gen_shamir value key_count threshold p rand).length = key_count := by
  rw [clean_gen_shamir]
  simp

/-- Each share produced by `clean_gen_shamir` is, modulo `p`, the
evaluation of the sharing polynomial at its 1-based index. -/
theorem clean_gen_shamir_cast {p : Nat} [NeZero p] (value key_count threshold : Nat)
    (rand : List Nat) {x : Nat} (hx : x < key_count) :
    (((clean_gen_shamir value key_count threshold p rand).getD x 0 : Nat) : ZMod p) =
      Polynomial.eval ((x : ZMod p) + 1) (polyOf p (value :: rand.take (threshold - 1))) := by
  rw [clean_gen_shamir]
  rw [getD_map_range _ hx, polyOf_eval, ZMod.natCast_mod, Nat.cast_sum]
  refine Finset.sum_congr rfl (fun i _ => ?_)
  rw [Nat.cast_mul, ZMod.natCast_mod, Nat.cast_pow]
  push_cast
  ring

/-- Shamir generation followed by Lagrange reconstruction is the
identity whenever the evaluation nodes `1..D` stay distinct modulo `p`,
i.e. whenever `D ≤ p`, for any threshold `1 ≤ t ≤ D` and any choice of
the sampled coefficients. -/
theorem shamir_roundtrip {p D t : Nat} [hp : Fact (Nat.Prime p)] (hD : 0 < D) (hDp : D ≤ p)
    (htD : t ≤ D) (s : Nat) (hs : s < p) (rand : List Nat) :
    resolve (clean_gen_shamir s D t p rand) p = some s := by
  haveI : NeZero p := ⟨hp.out.ne_zero⟩
  have hlen : (s :: rand.take (t - 1)).length ≤ D := by
    simp only [List.length_cons, List.length_take]
    omega
  have h := resolve_eval hD hDp (polyOf p (s :: rand.take (t - 1)))
    (polyOf_degree_lt _ hlen hD)
    (clean_gen_shamir s D t p rand) (clean_gen_shamir_length s D t p rand)
    (fun i hi => clean_gen_shamir_cast s D t rand hi)
  rw [h, polyOf_eval_zero, ZMod.val_natCast_of_lt hs]

/-- C1 (amended): for every prime `p ≥ D`, secret `s < p`, `3 ≤ D ≤ 9`
and `t = ⌈(D+1)/2⌉`, reconstructing with `utils.resolve` the `D` shares
produced by `utils.clean_gen_shamir(s, D, t, p)` returns exactly `s`,
for every choice of the `t - 1` sampled coefficients. -/
theorem C1_shamir_roundtrip (p D t s : Nat) (rand : List Nat) [Fact (Nat.Prime p)]
    (hD3 : 3 ≤ D) (hD9 : D ≤ 9) (hDp : D ≤ p) (ht : t = (D + 2) / 2) (hs : s < p) :
    resolve (clean_gen_shamir s D t p rand) p = some s :=
  shamir_roundtrip (by omega) hDp (by omega) s hs rand

instance fact_prime_11 : Fact (Nat.Prime 11) := ⟨by norm_num⟩
instance fact_prime_5 : Fact (Nat.Prime 5) := ⟨by norm_num⟩

/-- Witness for C1: `p = 11`, `D = 3`, `t = 2`, secret `5`, sampled
coefficient `7`. -/
theorem C1_witness :
    resolve (clean_gen_shamir 5 3 2 11 [7]) 11 = some 5 :=
  C1_shamir_roundtrip 11 3 2 5 [7] (by decide) (by decide) (by decide) (by decide) (by decide)

/-- Counterexample to C1 as stated: at the prime `p = 2` with `D = 3`,
`t = ⌈(D+1)/2⌉ = 2`, secret `0`, `utils.resolve` raises `ValueError`
(some `(x_j - x_i) % p` is `0`, so `pow(c2, -1, p)` fails) instead of
returning the secret. -/
theorem C1_counterexample :
    resolve (clean_gen_shamir 0 3 2 2 []) 2 ≠ some 0 ∧
      resolve (clean_gen_shamir 0 3 2 2 []) 2 = none := by
  exact ⟨by decide, by decide⟩

/-! ## `utils.inverse`: Gauss–Jordan elimination modulo `p` -/

/-- Row `i`, column `j` of a matrix stored as a list of rows. -/
def getE (m : List (List Nat)) (i j : Nat) : Nat := (m.getD i []).getD j 0

/-- `utils.inverse.eliminate` (utils.py:44-48):
`fac = (r2[col] - target) * pow(r1[col], -1, p)` and then
`r2[i] = (r2[i] - fac * r1[i]) % p` for every index of `r2`.  `none`
models the `ValueError` raised by `pow` when `r1[col]` is not
invertible modulo `p`.  The final normalisation loop calls this with
`r1` and `r2` aliased; since `fac` is computed up front and each index
is read exactly once before being overwritten, the aliased in-place
update equals this same function applied with `r1 = r2`. -/
def eliminate (p : Nat) (r1 r2 : List Nat) (col target : Nat) : Option (List Nat) :=
  (modInv (r1.getD col 0) p).map fun (iv : Nat) =>
    (List.zip r2 r1).map fun q =>
      pymod ((q.1 : Int) - ((r2.getD col 0 : Int) - (target : Int)) * (iv : Int) * (q.2 : Int)) p

/-- Apply `eliminate(a[i], a[j], col, target)` to the matrix, storing the
result in row `j`. -/
def elimRow (p : Nat) (m : List (List Nat)) (i j col target : Nat) :
    Option (List (List Nat)) :=
  (eliminate p (m.getD i []) (m.getD j []) col target).map (fun r => m.set j r)

/-- `a[i], a[j] = a[j], a[i]`. -/
def swapRows (m : List (List Nat)) (i j : Nat) : List (List Nat) :=
  (m.set i (m.getD j [])).set j (m.getD i [])

/-- The pivot handling of `utils.inverse.gauss` (utils.py:51-58): if
`a[i][i] == 0`, find the first `j` in `i+1..n-1` with `a[i][j] != 0`
(an entry of row `i`, exactly as the source tests) and swap rows `i`
and `j`; raise "Matrix is not invertible" when none is found. -/
def pivotFix (m : List (List Nat)) (i n : Nat) : Option (List (List Nat)) :=
  if getE m i i ≠ 0 then some m
  else
    match (List.range' (i + 1) (n - (i + 1))).find? (fun j => getE m i j != 0) with
    | some j => some (swapRows m i j)
    | none => none

/-- `for k in [start, start+1, ..., start+fuel-1]: m = f m k`, failing on
the first failing step. -/
def forLoopO (f : List (List Nat) → Nat → Option (List (List Nat))) :
    (start fuel : Nat) → List (List Nat) → Option (List (List Nat))
  | _, 0, m => some m
  | start, fuel + 1, m => (f m start).bind (forLoopO f (start + 1) fuel)

/-- `for k in [fuel-1, fuel-2, ..., 0]: m = f m k`, failing on the first
failing step. -/
def forLoopD (f : List (List Nat) → Nat → Option (List (List Nat))) :
    (fuel : Nat) → List (List Nat) → Option (List (List Nat))
  | 0, m => some m
  | fuel + 1, m => (f m fuel).bind (forLoopD f fuel)

/-- Forward elimination step `i` (utils.py:51-60): fix the pivot, then
eliminate column `i` from every row below. -/
def forwardStep (p n : Nat) (m : List (List Nat)) (i : Nat) : Option (List (List Nat)) :=
  (pivotFix m i n).bind (forLoopO (fun m j => elimRow p m i j i 0) (i + 1) (n - (i + 1)))

def forward (p n : Nat) (m : List (List Nat)) : Option (List (List Nat)) :=
  forLoopO (forwardStep p n) 0 n m

/-- Backward elimination (utils.py:61-63): for `i = n-1..0`, eliminate
column `i` from every row above. -/
def backwardStep (p : Nat) (m : List (List Nat)) (i : Nat) : Option (List (List Nat)) :=
  forLoopD (fun m j => elimRow p m i j i 0) i m

def backward (p n : Nat) (m : List (List Nat)) : Option (List (List Nat)) :=
  forLoopD (backwardStep p) n m

/-- Diagonal normalisation (utils.py:64-65): `eliminate(a[i], a[i], i,
target=1)` scales each row so its pivot becomes 1. -/
def scale (p n : Nat) (m : List (List Nat)) : Option (List (List Nat)) :=
  forLoopO (fun m i => elimRow p m i i i 1) 0 n m

def gauss (p n : Nat) (m : List (List Nat)) : Option (List (List Nat)) :=
  ((forward p n m).bind (backward p n)).bind (scale p n)

/-- Row `i` of the augmented matrix `tmp` (utils.py:68-71):
`row + [0]*i + [1] + [0]*(n-i-1)`. -/
def augmentRow (n i : Nat) (row : List Nat) : List Nat :=
  row ++ (List.replicate i 0 ++ 1 :: List.replicate (n - i - 1) 0)

/-- `utils.inverse` (utils.py:43-73): Gauss–Jordan over `Z_p` on the
matrix augmented with the identity, returning the right halves.  `none`
models every exception path: the `assert len(row) == len(a)`, the
explicit "Matrix is not invertible" `ValueError`, and the `ValueError`
raised by `pow` on a non-invertible pivot. -/
def inverse (a : List (List Nat)) (p : Nat) : Option (List (List Nat)) :=
  let n := a.length
  if a.all (fun row => row.length == n) then
    (gauss p n ((List.range n).map (fun i => augmentRow n i (a.getD i [])))).map
      (fun m => m.map (fun r => r.drop n))
  else none

/-- The Vandermonde matrix `[[pow(i, j, p) for j in range(D)] for i in
range(1, D+1)]` of `MpcBase.__init__` (mpc.py:54). -/
def vandermonde (D p : Nat) : List (List Nat) :=
  (List.range D).map (fun i => (List.range D).map (fun j => (i + 1) ^ j % p))

/-- Matrix product with entries reduced modulo `p`. -/
def matMulMod (p : Nat) (A B : List (List Nat)) : List (List Nat) :=
  A.map (fun row =>
    (List.range (B.getD 0 []).length).map
      (fun c => (∑ k in Finset.range B.length, row.getD k 0 * getE B k c) % p))

def idMat (n : Nat) : List (List Nat) :=
  (List.range n).map (fun i => (List.range n).map (fun j => if i = j then 1 else 0))

example : inverse (vandermonde 3 5) 5 = some [[3, 2, 1], [0, 4, 1], [3, 4, 3]] := by decide
example : inverse [[0, 1, 0], [0, 0, 1], [1, 0, 0]] 5 = none := by decide

/-! ### List access helper lemmas -/

theorem getD_set_self {α : Type} (d : α) (l : List α) (j : Nat) (x : α) (h : j < l.length) :
    (l.set j x).getD j d = x := by
  rw [List.getD_eq_getElem?_getD, List.getElem?_set_eq_of_lt x h]
  rfl

theorem getD_set_ne {α : Type} (d : α) (l : List α) {j k : Nat} (x : α) (h : k ≠ j) :
    (l.set j x).getD k d = l.getD k d := by
  rw [List.getD_eq_getElem?_getD, List.getElem?_set_ne (by omega), ← List.getD_eq_getElem?_getD]

theorem getD_zip_map (r2 r1 : List Nat) (f : Nat × Nat → Nat) {c : Nat}
    (h2 : c < r2.length) (h1 : c < r1.length) :
    ((List.zip r2 r1).map f).getD c 0 = f (r2.getD c 0, r1.getD c 0) := by
  rw [List.getD_eq_getElem?_getD, List.getElem?_map, List.zip, List.getElem?_zipWith',
    List.getElem?_eq_getElem h2, List.getElem?_eq_getElem h1]
  simp [List.getD_eq_getElem?_getD, List.getElem?_eq_getElem, h1, h2]

theorem getD_drop (l : List Nat) (n k : Nat) : (l.drop n).getD k 0 = l.getD (n + k) 0 := by
  rw [List.getD_eq_getElem?_getD, List.getElem?_drop, ← List.getD_eq_getElem?_getD]

/-! ### What one `eliminate` call does, over `ZMod p` -/

/-- Successful `eliminate` returns a row of length `min |r2| |r1|` that
is, modulo `p`, `r2 - fac * r1` for a single factor `fac`, and whose
`col` entry is exactly `target`. -/
theorem eliminate_spec {p : Nat} [NeZero p] {r1 r2 r : List Nat} {col target : Nat}
    (h : eliminate p r1 r2 col target = some r) :
    r.length = min r2.length r1.length ∧
    ∃ fac : ZMod p,
      (∀ c, c < r2.length → c < r1.length →
        ((r.getD c 0 : Nat) : ZMod p) =
          ((r2.getD c 0 : Nat) : ZMod p) - fac * ((r1.getD c 0 : Nat) : ZMod p)) ∧
      (col < r2.length → col < r1.length →
        ((r.getD col 0 : Nat) : ZMod p) = (target : ZMod p)) := by
  rw [eliminate] at h
  cases hmi : modInv (r1.getD col 0) p with
  | none => rw [hmi] at h; exact absurd h (by simp)
  | some iv =>
    rw [hmi, Option.map_some'] at h
    injection h with h
    subst h
    constructor
    · rw [List.length_map, List.length_zip]
    · refine ⟨(((r2.getD col 0 : Nat) : ZMod p) - (target : ZMod p)) * (iv : ZMod p), ?_, ?_⟩
      · intro c hc2 hc1
        rw [getD_zip_map r2 r1 _ hc2 hc1, pymod_cast]
        push_cast
        ring
      · intro hc2 hc1
        rw [getD_zip_map r2 r1 _ hc2 hc1, pymod_cast]
        have hinv : ((r1.getD col 0 : Nat) : ZMod p) * (iv : ZMod p) = 1 := by
          have h1 := modInv_spec hmi
          have := congrArg (fun x : Nat => ((x : Nat) : ZMod p)) h1
          simpa [ZMod.natCast_mod] using this
        push_cast
        calc ((r2.getD col 0 : Nat) : ZMod p) -
              ((r2.getD col 0 : Nat) - (target : ZMod p)) * (iv : ZMod p) *
                ((r1.getD col 0 : Nat) : ZMod p)
            = ((r2.getD col 0 : Nat) : ZMod p) -
              ((r2.getD col 0 : Nat) - (target : ZMod p)) *
                (((r1.getD col 0 : Nat) : ZMod p) * (iv : ZMod p)) := by ring
          _ = (target : ZMod p) := by rw [hinv]; ring

/-! ### Partial correctness of the Gauss–Jordan elimination -/

/-- Entry `(i, c)` of a matrix, as an element of `ZMod p`. -/
def entry (p : Nat) (m : List (List Nat)) (i c : Nat) : ZMod p := ((getE m i c : Nat) : ZMod p)

/-- The invariant carried through `gauss` on the augmented matrix: the
dimensions, and the fact that each row's left half equals its right half
multiplied by the original matrix `a` (all over `ZMod p`).  Row
operations preserve it because they act linearly on whole rows. -/
def GJInv (p n : Nat) (a m : List (List Nat)) : Prop :=
  m.length = n ∧ (∀ i, i < n → (m.getD i []).length = 2 * n) ∧
  ∀ i c, i < n → c < n →
    entry p m i c = ∑ k in Finset.range n, entry p m i (n + k) * entry p a k c

theorem elimRow_some {p : Nat} {m m' : List (List Nat)} {i j col target : Nat}
    (h : elimRow p m i j col target = some m') :
    ∃ r, eliminate p (m.getD i []) (m.getD j []) col target = some r ∧ m' = m.set j r := by
  rw [elimRow] at h
  cases he : eliminate p (m.getD i []) (m.getD j []) col target with
  | none => rw [he] at h; exact absurd h (by simp)
  | some r =>
    rw [he, Option.map_some'] at h
    injection h with h
    exact ⟨r, rfl, h.symm⟩

theorem elimRow_GJInv {p n : Nat} [NeZero p] {a m m' : List (List Nat)} {i j col target : Nat}
    (hi : i < n) (hj : j < n) (h : elimRow p m i j col target = some m')
    (hm : GJInv p n a m) : GJInv p n a m' := by
  obtain ⟨hlen, hrow, hlin⟩ := hm
  obtain ⟨r, he, hset⟩ := elimRow_some h
  obtain ⟨hrlen, fac, hfac, -⟩ := eliminate_spec he
  have hrlen2 : r.length = 2 * n := by
    rw [hrlen, hrow i hi, hrow j hj]
    exact min_self _
  subst hset
  refine ⟨by rw [List.length_set, hlen], ?_, ?_⟩
  · intro k hk
    by_cases hkj : k = j
    · rw [hkj, getD_set_self [] m j r (by omega)]; exact hrlen2
    · rw [getD_set_ne [] m r hkj]; exact hrow k hk
  · intro i0 c hi0 hc
    by_cases hij : i0 = j
    · subst hij
      have hgetr : ∀ c0, c0 < 2 * n →
          entry p (m.set i0 r) i0 c0 = entry p m i0 c0 - fac * entry p m i c0 := by
        intro c0 hc0
        have hsr : (m.set i0 r).getD i0 [] = r := getD_set_self [] m i0 r (by omega)
        rw [entry, getE, hsr]
        exact hfac c0 (by rw [hrow i0 hi0]; omega) (by rw [hrow i hi]; omega)
      rw [hgetr c (by omega)]
      have hsum : ∀ k ∈ Finset.range n,
          entry p (m.set i0 r) i0 (n + k) * entry p a k c =
            (entry p m i0 (n + k) - fac * entry p m i (n + k)) * entry p a k c := by
        intro k hk
        rw [hgetr (n + k) (by have := Finset.mem_range.mp hk; omega)]
      rw [Finset.sum_congr rfl hsum]
      calc entry p m i0 c - fac * entry p m i c
          = (∑ k in Finset.range n, entry p m i0 (n + k) * entry p a k c) -
            fac * ∑ k in Finset.range n, entry p m i (n + k) * entry p a k c := by
            rw [hlin i0 c hi0 hc, hlin i c hi hc]
        _ = ∑ k in Finset.range n,
              (entry p m i0 (n + k) - fac * entry p m i (n + k)) * entry p a k c := by
            rw [Finset.mul_sum, ← Finset.sum_sub_distrib]
            exact Finset.sum_congr rfl (fun k _ => by ring)
    · have hroweq : (m.set j r).getD i0 [] = m.getD i0 [] := getD_set_ne [] m r hij
      have : ∀ c0, entry p (m.set j r) i0 c0 = entry p m i0 c0 := by
        intro c0; rw [entry, getE, hroweq]; rfl
      rw [this c]
      rw [hlin i0 c hi0 hc]
      exact Finset.sum_congr rfl (fun k _ => by rw [this (n + k)])

theorem swapRows_getD {m : List (List Nat)} {i j : Nat} (hi : i < m.length)
    (hj : j < m.length) (k : Nat) :
    (swapRows m i j).getD k [] =
      if k = j then m.getD i [] else if k = i then m.getD j [] else m.getD k [] := by
  rw [swapRows]
  by_cases hkj : k = j
  · subst hkj
    rw [getD_set_self [] _ k _ (by rw [List.length_set]; omega)]
    simp
  · rw [getD_set_ne [] _ _ hkj]
    by_cases hki : k = i
    · subst hki
      rw [getD_set_self [] _ k _ hi]
      simp [hkj]
    · rw [getD_set_ne [] _ _ hki]
      simp [hkj, hki]

theorem swapRows_length (m : List (List Nat)) (i j : Nat) :
    (swapRows m i j).length = m.length := by
  rw [swapRows, List.length_set, List.length_set]

theorem swapRows_GJInv {p n : Nat} {a m : List (List Nat)} {i j : Nat}
    (hi : i < n) (hj : j < n) (hm : GJInv p n a m) : GJInv p n a (swapRows m i j) := by
  obtain ⟨hlen, hrow, hlin⟩ := hm
  have hgd := fun k => swapRows_getD (m := m) (by omega : i < m.length)
    (by omega : j < m.length) k
  refine ⟨by rw [swapRows_length, hlen], ?_, ?_⟩
  · intro k hk
    rw [hgd k]
    by_cases h1 : k = j
    · simp only [h1, if_pos rfl]; exact hrow i hi
    · rw [if_neg h1]
      by_cases h2 : k = i
      · rw [if_pos h2]; exact hrow j hj
      · rw [if_neg h2]; exact hrow k hk
  · intro i0 c hi0 hc
    have hent : ∀ c0, entry p (swapRows m i j) i0 c0 =
        entry p m (if i0 = j then i else if i0 = i then j else i0) c0 := by
      intro c0
      rw [entry, getE, hgd i0]
      by_cases h1 : i0 = j
      · rw [if_pos h1, if_pos h1]; rfl
      · rw [if_neg h1, if_neg h1]
        by_cases h2 : i0 = i
        · rw [if_pos h2, if_pos h2]; rfl
        · rw [if_neg h2, if_neg h2]; rfl
    rw [hent c]
    have hsrc : (if i0 = j then i else if i0 = i then j else i0) < n := by
      by_cases h1 : i0 = j
      · rw [if_pos h1]; omega
      · rw [if_neg h1]
        by_cases h2 : i0 = i
        · rw [if_pos h2]; omega
        · rw [if_neg h2]; omega
    rw [hlin _ c hsrc hc]
    exact Finset.sum_congr rfl (fun k _ => by rw [hent (n + k)])

theorem pivotFix_some {m m' : List (List Nat)} {i n : Nat} (h : pivotFix m i n = some m') :
    m' = m ∨ ∃ j, i < j ∧ j < n ∧ m' = swapRows m i j := by
  rw [pivotFix] at h
  by_cases h0 : getE m i i ≠ 0
  · rw [if_pos h0] at h; injection h with h; exact Or.inl h.symm
  · rw [if_neg h0] at h
    cases hf : (List.range' (i + 1) (n - (i + 1))).find? (fun j => getE m i j != 0) with
    | none => rw [hf] at h; exact absurd h (by simp)
    | some j =>
      rw [hf] at h
      injection h with h
      have hmem := List.mem_range'_1.mp (List.mem_of_find?_eq_some hf)
      exact Or.inr ⟨j, by omega, by omega, h.symm⟩

theorem pivotFix_GJInv {p n : Nat} {a m m' : List (List Nat)} {i : Nat}
    (hi : i < n) (h : pivotFix m i n = some m') (hm : GJInv p n a m) : GJInv p n a m' := by
  rcases pivotFix_some h with h1 | ⟨j, _, hj, h1⟩
  · rwa [h1]
  · rw [h1]; exact swapRows_GJInv hi hj hm

theorem forLoopO_inv {P : List (List Nat) → Prop} {f : List (List Nat) → Nat → Option (List (List Nat))} :
    ∀ (start fuel : Nat) (m m' : List (List Nat)),
      (∀ m0 k m1, start ≤ k → k < start + fuel → f m0 k = some m1 → P m0 → P m1) →
      forLoopO f start fuel m = some m' → P m → P m'
  | _, 0, m, m', _, h, hP => by
    rw [forLoopO] at h; injection h with h; rwa [← h]
  | start, fuel + 1, m, m', hf, h, hP => by
    rw [forLoopO] at h
    cases h1 : f m start with
    | none => rw [h1] at h; exact absurd h (by simp)
    | some m1 =>
      rw [h1, Option.some_bind] at h
      exact forLoopO_inv (start + 1) fuel m1 m'
        (fun m0 k m2 hk1 hk2 => hf m0 k m2 (by omega) (by omega))
        h (hf m start m1 (le_refl _) (by omega) h1 hP)

theorem forLoopD_inv {P : List (List Nat) → Prop} {f : List (List Nat) → Nat → Option (List (List Nat))} :
    ∀ (fuel : Nat) (m m' : List (List Nat)),
      (∀ m0 k m1, k < fuel → f m0 k = some m1 → P m0 → P m1) →
      forLoopD f fuel m = some m' → P m → P m'
  | 0, m, m', _, h, hP => by
    rw [forLoopD] at h; injection h with h; rwa [← h]
  | fuel + 1, m, m', hf, h, hP => by
    rw [forLoopD] at h
    cases h1 : f m fuel with
    | none => rw [h1] at h; exact absurd h (by simp)
    | some m1 =>
      rw [h1, Option.some_bind] at h
      exact forLoopD_inv fuel m1 m' (fun m0 k m2 hk => hf m0 k m2 (by omega))
        h (hf m fuel m1 (by omega) h1 hP)

/-- `gauss` preserves the augmented-matrix invariant. -/
theorem gauss_GJInv {p n : Nat} [NeZero p] {a m m' : List (List Nat)}
    (h : gauss p n m = some m') (hm : GJInv p n a m) : GJInv p n a m' := by
  rw [gauss] at h
  cases h1 : forward p n m with
  | none => rw [h1] at h; exact absurd h (by simp)
  | some m1 =>
    rw [h1, Option.some_bind] at h
    cases h2 : backward p n m1 with
    | none => rw [h2] at h; exact absurd h (by simp)
    | some m2 =>
      rw [h2, Option.some_bind] at h
      have hm1 : GJInv p n a m1 := by
        refine forLoopO_inv 0 n m m1 (fun m0 i m0' _ hi hstep hP => ?_) h1 hm
        rw [forwardStep] at hstep
        cases hp : pivotFix m0 i n with
        | none => rw [hp] at hstep; exact absurd hstep (by simp)
        | some mp =>
          rw [hp, Option.some_bind] at hstep
          refine forLoopO_inv (i + 1) (n - (i + 1)) mp m0'
            (fun mq j mq' hj1 hj2 hq hPq =>
              elimRow_GJInv (by omega) (by omega) hq hPq) hstep
            (pivotFix_GJInv (by omega) hp hP)
      have hm2 : GJInv p n a m2 := by
        refine forLoopD_inv n m1 m2 (fun m0 i m0' hi hstep hP => ?_) h2 hm1
        rw [backwardStep] at hstep
        exact forLoopD_inv i m0 m0'
          (fun mq j mq' hj hq hPq => elimRow_GJInv (by omega) (by omega) hq hPq) hstep hP
      refine forLoopO_inv 0 n m2 m' (fun m0 i m0' _ hi hstep hP =>
        elimRow_GJInv (by omega) (by omega) hstep hP) h hm2

theorem getD_append_left {α : Type} (d : α) (l l' : List α) {i : Nat} (h : i < l.length) :
    (l ++ l').getD i d = l.getD i d := by
  rw [List.getD_eq_getElem?_getD, List.getElem?_append, if_pos h, ← List.getD_eq_getElem?_getD]

theorem getD_append_r {α : Type} (d : α) (l l' : List α) {i : Nat} (h : l.length ≤ i) :
    (l ++ l').getD i d = l'.getD (i - l.length) d := by
  rw [List.getD_eq_getElem?_getD, List.getElem?_append, if_neg (by omega),
    ← List.getD_eq_getElem?_getD]

theorem getD_replicate {α : Type} (d a : α) {i n : Nat} (h : i < n) :
    (List.replicate n a).getD i d = a := by
  rw [List.getD_eq_getElem?_getD, List.getElem?_replicate, if_pos h]
  rfl

theorem getD_map_range' {α : Type} (d : α) (f : Nat → α) {x n : Nat} (hx : x < n) :
    ((List.range n).map f).getD x d = f x := by
  rw [List.getD_eq_getElem?_getD, List.getElem?_map, List.getElem?_range hx]
  rfl

theorem entry_eq_of_row {p : Nat} {m m2 : List (List Nat)} {j j2 : Nat}
    (h : m.getD j [] = m2.getD j2 []) (c : Nat) : entry p m j c = entry p m2 j2 c := by
  rw [entry, getE, h]
  rfl

/-! ### Shape analysis of the elimination phases -/

/-- Dimension facts carried through the elimination: `n` rows, each of
length `2n` (the augmented width). -/
def Dims (n : Nat) (m : List (List Nat)) : Prop :=
  m.length = n ∧ ∀ k, k < n → (m.getD k []).length = 2 * n

/-- Columns `< t` have zeros strictly below the diagonal (over `ZMod p`). -/
def LowZ (p n t : Nat) (m : List (List Nat)) : Prop :=
  ∀ c r, c < t → c < r → r < n → entry p m r c = 0

/-- Columns `≥ t` (and `< n`) have zeros strictly above the diagonal. -/
def UpZ (p n t : Nat) (m : List (List Nat)) : Prop :=
  ∀ c r, t ≤ c → c < n → r < c → entry p m r c = 0

/-- What a successful `elimRow` does to the matrix: row `j` becomes
`row j - fac * row i` (entrywise, over `ZMod p`) with its `col` entry
set to exactly `target`; every other row is untouched. -/
theorem elimRow_rows {p n : Nat} [NeZero p] {m m' : List (List Nat)} {i j col target : Nat}
    (hi : i < n) (hj : j < n) (h : elimRow p m i j col target = some m') (hd : Dims n m) :
    Dims n m' ∧
    (∀ k, k ≠ j → m'.getD k [] = m.getD k []) ∧
    ∃ fac : ZMod p,
      (∀ c, c < 2 * n → entry p m' j c = entry p m j c - fac * entry p m i c) ∧
      (col < 2 * n → entry p m' j col = (target : ZMod p)) := by
  obtain ⟨hlen, hrow⟩ := hd
  obtain ⟨r, he, hset⟩ := elimRow_some h
  obtain ⟨hrlen, fac, hfac, hcol⟩ := eliminate_spec he
  have hrlen2 : r.length = 2 * n := by
    rw [hrlen, hrow i hi, hrow j hj]; exact min_self _
  have hrowj : m'.getD j [] = r := by
    rw [hset]; exact getD_set_self [] m j r (by omega)
  have hrowk : ∀ k, k ≠ j → m'.getD k [] = m.getD k [] := by
    intro k hk
    rw [hset]; exact getD_set_ne [] m r hk
  refine ⟨⟨by rw [hset, List.length_set, hlen], ?_⟩, hrowk, fac, ?_, ?_⟩
  · intro k hk
    by_cases hkj : k = j
    · rw [hkj, hrowj]; exact hrlen2
    · rw [hrowk k hkj]; exact hrow k hk
  · intro c hc
    rw [entry, getE, hrowj]
    exact hfac c (by rw [hrow j hj]; omega) (by rw [hrow i hi]; omega)
  · intro hc
    rw [entry, getE, hrowj]
    exact hcol (by rw [hrow j hj]; omega) (by rw [hrow i hi]; omega)

/-- The inner loop of a forward step: rows `start..start+fuel-1` each
become `row - fac * (row i)` with a zero in column `i`; all other rows
(including row `i` itself) are untouched. -/
theorem fwdInner_spec {p n i : Nat} [NeZero p] :
    ∀ (fuel start : Nat) (m m' : List (List Nat)),
      forLoopO (fun m0 j => elimRow p m0 i j i 0) start fuel m = some m' →
      i < start → start + fuel ≤ n → i < n → Dims n m →
      Dims n m' ∧
      (∀ k, k < start ∨ start + fuel ≤ k → m'.getD k [] = m.getD k []) ∧
      (∀ j, start ≤ j → j < start + fuel →
        ∃ fac : ZMod p, ∀ c, c < 2 * n →
          entry p m' j c = entry p m j c - fac * entry p m i c) ∧
      (∀ j, start ≤ j → j < start + fuel → entry p m' j i = 0)
  | 0, start, m, m' => by
    intro h _ _ _ hd
    rw [forLoopO] at h
    injection h with h
    subst h
    exact ⟨hd, fun k _ => rfl, fun j h1 h2 => absurd h2 (by omega),
      fun j h1 h2 => absurd h2 (by omega)⟩
  | fuel + 1, start, m, m' => by
    intro h histart hfuel hin hd
    rw [forLoopO] at h
    cases h1 : elimRow p m i start i 0 with
    | none => rw [h1] at h; exact absurd h (by simp)
    | some m1 =>
      rw [h1, Option.some_bind] at h
      obtain ⟨hd1, hrowk, fac0, hfac0, hcol0⟩ :=
        elimRow_rows hin (by omega) h1 hd
      obtain ⟨hd', hunch, hfacs, hzeros⟩ :=
        fwdInner_spec fuel (start + 1) m1 m' h (by omega) (by omega) hin hd1
      have hrow_i : m1.getD i [] = m.getD i [] := hrowk i (by omega)
      have hrow_start' : m'.getD start [] = m1.getD start [] := hunch start (Or.inl (by omega))
      refine ⟨hd', ?_, ?_, ?_⟩
      · intro k hk
        rcases hk with hk | hk
        · rw [hunch k (Or.inl (by omega)), hrowk k (by omega)]
        · rw [hunch k (Or.inr (by omega)), hrowk k (by omega)]
      · intro j hj1 hj2
        by_cases hjs : j = start
        · subst hjs
          refine ⟨fac0, fun c hc => ?_⟩
          rw [entry_eq_of_row hrow_start' c]
          exact hfac0 c hc
        · obtain ⟨fac, hfac⟩ := hfacs j (by omega) (by omega)
          refine ⟨fac, fun c hc => ?_⟩
          rw [hfac c hc, entry_eq_of_row (hrowk j hjs) c, entry_eq_of_row hrow_i c]
      · intro j hj1 hj2
        by_cases hjs : j = start
        · subst hjs
          rw [entry_eq_of_row hrow_start' i]
          have := hcol0 (by omega)
          rwa [Nat.cast_zero] at this
        · exact hzeros j (by omega) (by omega)

/-- The inner loop of a backward step (descending over rows `fuel-1..0`):
each processed row becomes `row - fac * (row i)` with a zero in column
`i`; rows `≥ fuel` are untouched. -/
theorem bwdInner_spec {p n i : Nat} [NeZero p] :
    ∀ (fuel : Nat) (m m' : List (List Nat)),
      forLoopD (fun m0 j => elimRow p m0 i j i 0) fuel m = some m' →
      fuel ≤ i → i < n → Dims n m →
      Dims n m' ∧
      (∀ k, fuel ≤ k → m'.getD k [] = m.getD k []) ∧
      (∀ j, j < fuel →
        ∃ fac : ZMod p, ∀ c, c < 2 * n →
          entry p m' j c = entry p m j c - fac * entry p m i c) ∧
      (∀ j, j < fuel → entry p m' j i = 0)
  | 0, m, m' => by
    intro h _ _ hd
    rw [forLoopD] at h
    injection h with h
    subst h
    exact ⟨hd, fun k _ => rfl, fun j hj => absurd hj (by omega), fun j hj => absurd hj (by omega)⟩
  | fuel + 1, m, m' => by
    intro h hfi hin hd
    rw [forLoopD] at h
    cases h1 : elimRow p m i fuel i 0 with
    | none => rw [h1] at h; exact absurd h (by simp)
    | some m1 =>
      rw [h1, Option.some_bind] at h
      obtain ⟨hd1, hrowk, fac0, hfac0, hcol0⟩ :=
        elimRow_rows hin (by omega) h1 hd
      obtain ⟨hd', hunch, hfacs, hzeros⟩ := bwdInner_spec fuel m1 m' h (by omega) hin hd1
      have hrow_i : m1.getD i [] = m.getD i [] := hrowk i (by omega)
      have hrow_f' : m'.getD fuel [] = m1.getD fuel [] := hunch fuel (by omega)
      refine ⟨hd', ?_, ?_, ?_⟩
      · intro k hk
        rw [hunch k (by omega), hrowk k (by omega)]
      · intro j hj
        by_cases hjf : j = fuel
        · subst hjf
          refine ⟨fac0, fun c hc => ?_⟩
          rw [entry_eq_of_row hrow_f' c]
          exact hfac0 c hc
        · obtain ⟨fac, hfac⟩ := hfacs j (by omega)
          refine ⟨fac, fun c hc => ?_⟩
          rw [hfac c hc, entry_eq_of_row (hrowk j hjf) c, entry_eq_of_row hrow_i c]
      · intro j hj
        by_cases hjf : j = fuel
        · subst hjf
          rw [entry_eq_of_row hrow_f' i]
          have := hcol0 (by omega)
          rwa [Nat.cast_zero] at this
        · exact hzeros j (by omega)

/-- The normalisation loop: each processed row is rescaled (entrywise
`row - fac * row`) and its diagonal entry becomes exactly 1. -/
theorem scaleLoop_spec {p n : Nat} [NeZero p] :
    ∀ (fuel start : Nat) (m m' : List (List Nat)),
      forLoopO (fun m0 k => elimRow p m0 k k k 1) start fuel m = some m' →
      start + fuel ≤ n → Dims n m →
      Dims n m' ∧
      (∀ k, k < start ∨ start + fuel ≤ k → m'.getD k [] = m.getD k []) ∧
      (∀ j, start ≤ j → j < start + fuel →
        ∃ fac : ZMod p,
          (∀ c, c < 2 * n → entry p m' j c = entry p m j c - fac * entry p m j c) ∧
          entry p m' j j = 1)
  | 0, start, m, m' => by
    intro h _ hd
    rw [forLoopO] at h
    injection h with h
    subst h
    exact ⟨hd, fun k _ => rfl, fun j h1 h2 => absurd h2 (by omega)⟩
  | fuel + 1, start, m, m' => by
    intro h hfuel hd
    rw [forLoopO] at h
    cases h1 : elimRow p m start start start 1 with
    | none => rw [h1] at h; exact absurd h (by simp)
    | some m1 =>
      rw [h1, Option.some_bind] at h
      obtain ⟨hd1, hrowk, fac0, hfac0, hcol0⟩ :=
        elimRow_rows (by omega) (by omega) h1 hd
      obtain ⟨hd', hunch, hfacs⟩ := scaleLoop_spec fuel (start + 1) m1 m' h (by omega) hd1
      have hrow_start' : m'.getD start [] = m1.getD start [] := hunch start (Or.inl (by omega))
      refine ⟨hd', ?_, ?_⟩
      · intro k hk
        rcases hk with hk | hk
        · rw [hunch k (Or.inl (by omega)), hrowk k (by omega)]
        · rw [hunch k (Or.inr (by omega)), hrowk k (by omega)]
      · intro j hj1 hj2
        by_cases hjs : j = start
        · subst hjs
          refine ⟨fac0, fun c hc => ?_, ?_⟩
          · rw [entry_eq_of_row hrow_start' c]
            exact hfac0 c hc
          · rw [entry_eq_of_row hrow_start' j]
            have := hcol0 (by omega)
            rwa [Nat.cast_one] at this
        · obtain ⟨fac, hfac, hdiag⟩ := hfacs j (by omega) (by omega)
          refine ⟨fac, fun c hc => ?_, ?_⟩
          · rw [hfac c hc, entry_eq_of_row (hrowk j hjs) c]
          · exact hdiag

/-- The forward phase produces zeros below the diagonal. -/
theorem fwdOuter_spec {p n : Nat} [NeZero p] :
    ∀ (fuel start : Nat) (m m' : List (List Nat)),
      forLoopO (forwardStep p n) start fuel m = some m' →
      start + fuel ≤ n → Dims n m → LowZ p n start m →
      Dims n m' ∧ LowZ p n (start + fuel) m'
  | 0, start, m, m' => by
    intro h _ hd hlow
    rw [forLoopO] at h
    injection h with h
    subst h
    exact ⟨hd, hlow⟩
  | fuel + 1, start, m, m' => by
    intro h hfuel hd hlow
    rw [forLoopO] at h
    cases h1 : forwardStep p n m start with
    | none => rw [h1] at h; exact absurd h (by simp)
    | some m1 =>
      rw [h1, Option.some_bind] at h
      rw [forwardStep] at h1
      cases hp : pivotFix m start n with
      | none => rw [hp] at h1; exact absurd h1 (by simp)
      | some m0 =>
        rw [hp, Option.some_bind] at h1
        -- pivotFix preserves dimensions and the established lower zeros
        have hd0 : Dims n m0 := by
          rcases pivotFix_some hp with heq | ⟨j, hj1, hj2, heq⟩
          · rwa [heq]
          · subst heq
            obtain ⟨hlen, hrow⟩ := hd
            have hgd := fun k => swapRows_getD (m := m)
              (by omega : start < m.length) (by omega : j < m.length) k
            refine ⟨by rw [swapRows_length, hlen], fun k hk => ?_⟩
            rw [hgd k]
            by_cases e1 : k = j
            · rw [if_pos e1]; exact hrow start (by omega)
            · rw [if_neg e1]
              by_cases e2 : k = start
              · rw [if_pos e2]; exact hrow j (by omega)
              · rw [if_neg e2]; exact hrow k hk
        have hlow0 : LowZ p n start m0 := by
          rcases pivotFix_some hp with heq | ⟨j, hj1, hj2, heq⟩
          · rwa [heq]
          · subst heq
            intro c r hc hcr hrn
            obtain ⟨hlen, _⟩ := hd
            have hgd := swapRows_getD (m := m)
              (by omega : start < m.length) (by omega : j < m.length) r
            by_cases e1 : r = j
            · rw [entry_eq_of_row (hgd.trans (by rw [if_pos e1])) c]
              exact hlow c start hc (by omega) (by omega)
            · by_cases e2 : r = start
              · rw [entry_eq_of_row (hgd.trans (by rw [if_neg e1, if_pos e2])) c]
                exact hlow c j hc (by omega) (by omega)
              · rw [entry_eq_of_row (hgd.trans (by rw [if_neg e1, if_neg e2])) c]
                exact hlow c r hc hcr hrn
        obtain ⟨hd1, hunch, hfacs, hzeros⟩ :=
          fwdInner_spec (n - (start + 1)) (start + 1) m0 m1 h1 (by omega) (by omega)
            (by omega) hd0
        have hlow1 : LowZ p n (start + 1) m1 := by
          intro c r hc hcr hrn
          by_cases hcs : c < start
          · by_cases hrs : r < start + 1
            · rw [entry_eq_of_row (hunch r (Or.inl hrs)) c]
              exact hlow0 c r hcs hcr hrn
            · obtain ⟨fac, hfac⟩ := hfacs r (by omega) (by omega)
              rw [hfac c (by have := hd0.1; omega)]
              rw [hlow0 c r hcs hcr hrn, hlow0 c start hcs (by omega) (by omega)]
              ring
          · have hcs' : c = start := by omega
            subst hcs'
            exact hzeros r (by omega) (by omega)
        obtain ⟨hd', hlow'⟩ :=
          fwdOuter_spec fuel (start + 1) m1 m' h (by omega) hd1 hlow1
        exact ⟨hd', by rwa [show start + (fuel + 1) = start + 1 + fuel by omega]⟩

/-- The backward phase produces zeros above the diagonal while keeping
the zeros below it. -/
theorem bwdOuter_spec {p n : Nat} [NeZero p] :
    ∀ (fuel : Nat) (m m' : List (List Nat)),
      forLoopD (backwardStep p) fuel m = some m' →
      fuel ≤ n → Dims n m → LowZ p n n m → UpZ p n fuel m →
      Dims n m' ∧ LowZ p n n m' ∧ UpZ p n 0 m'
  | 0, m, m' => by
    intro h _ hd hlow hup
    rw [forLoopD] at h
    injection h with h
    subst h
    exact ⟨hd, hlow, hup⟩
  | fuel + 1, m, m' => by
    intro h hfn hd hlow hup
    rw [forLoopD] at h
    cases h1 : backwardStep p m fuel with
    | none => rw [h1] at h; exact absurd h (by simp)
    | some m1 =>
      rw [h1, Option.some_bind] at h
      rw [backwardStep] at h1
      obtain ⟨hd1, hunch, hfacs, hzeros⟩ :=
        bwdInner_spec fuel m m1 h1 (le_refl _) (by omega) hd
      have hlow1 : LowZ p n n m1 := by
        intro c r hc hcr hrn
        by_cases hrf : fuel ≤ r
        · rw [entry_eq_of_row (hunch r hrf) c]
          exact hlow c r hc hcr hrn
        · obtain ⟨fac, hfac⟩ := hfacs r (by omega)
          rw [hfac c (by have := hd.1; omega)]
          rw [hlow c r hc hcr hrn, hlow c fuel hc (by omega) (by omega)]
          ring
      have hup1 : UpZ p n fuel m1 := by
        intro c r hc hcn hrc
        by_cases hcf : c = fuel
        · subst hcf
          exact hzeros r (by omega)
        · have hcf' : fuel + 1 ≤ c := by omega
          by_cases hrf : fuel ≤ r
          · rw [entry_eq_of_row (hunch r hrf) c]
            exact hup c r (by omega) hcn hrc
          · obtain ⟨fac, hfac⟩ := hfacs r (by omega)
            rw [hfac c (by have := hd.1; omega)]
            rw [hup c r (by omega) hcn hrc, hup c fuel (by omega) hcn (by omega)]
            ring
      exact bwdOuter_spec fuel m1 m' h (by omega) hd1 hlow1 hup1

/-- After the scaling phase the left block of the augmented matrix is
exactly the identity (over `ZMod p`). -/
theorem scale_final {p n : Nat} [NeZero p] {m m' : List (List Nat)}
    (h : scale p n m = some m') (hd : Dims n m) (hlow : LowZ p n n m) (hup : UpZ p n 0 m) :
    Dims n m' ∧ ∀ r c, r < n → c < n →
      entry p m' r c = if r = c then 1 else 0 := by
  rw [scale] at h
  obtain ⟨hd', hunch, hfacs⟩ := scaleLoop_spec n 0 m m' h (by omega) hd
  refine ⟨hd', fun r c hr hc => ?_⟩
  obtain ⟨fac, hfac, hdiag⟩ := hfacs r (by omega) (by omega)
  by_cases hrc : r = c
  · rw [if_pos hrc, ← hrc]
    exact hdiag
  · rw [if_neg hrc]
    rw [hfac c (by omega)]
    have hz : entry p m r c = 0 := by
      rcases Nat.lt_or_ge c r with hlt | hge
      · exact hlow c r hc hlt hr
      · exact hup c r (by omega) hc (by omega)
    rw [hz]
    ring

/-- Partial correctness of `utils.inverse`: whenever it returns a matrix
`B` (instead of raising), `B * a` is the identity modulo `p`. -/
theorem inverse_mul {p : Nat} [NeZero p] {a B : List (List Nat)}
    (h : inverse a p = some B) :
    B.length = a.length ∧ (∀ i, i < a.length → (B.getD i []).length = a.length) ∧
    ∀ i c, i < a.length → c < a.length →
      (∑ k in Finset.range a.length, entry p B i k * entry p a k c) =
        if i = c then 1 else 0 := by
  rw [inverse] at h
  split at h
  case isFalse => exact absurd h (by simp)
  case isTrue hall =>
    set n := a.length with hn
    have hrowlen : ∀ k, k < n → (a.getD k []).length = n := by
      intro k hk
      have hmem : a.getD k [] ∈ a := by
        rw [List.getD_eq_getElem _ _ (by omega)]
        exact List.getElem_mem (by omega)
      have := List.all_eq_true.mp hall _ hmem
      simpa using this
    set tmp := (List.range n).map (fun i => augmentRow n i (a.getD i [])) with htmp
    have htmp_row : ∀ i, i < n → tmp.getD i [] = augmentRow n i (a.getD i []) := by
      intro i hi
      rw [htmp]
      exact getD_map_range' [] _ hi
    have hdims : Dims n tmp := by
      refine ⟨by rw [htmp]; simp, fun k hk => ?_⟩
      rw [htmp_row k hk, augmentRow, List.length_append, List.length_append,
        List.length_replicate, List.length_cons, List.length_replicate, hrowlen k hk]
      omega
    have hleft : ∀ i c, i < n → c < n → getE tmp i c = getE a i c := by
      intro i c hi hc
      rw [getE, htmp_row i hi, augmentRow,
        getD_append_left 0 _ _ (by rw [hrowlen i hi]; omega)]
      rfl
    have hright : ∀ i k, i < n → k < n →
        getE tmp i (n + k) = if k = i then 1 else 0 := by
      intro i k hi hk
      rw [getE, htmp_row i hi, augmentRow,
        getD_append_r 0 _ _ (by rw [hrowlen i hi]; omega), hrowlen i hi]
      have hidx : n + k - n = k := by omega
      rw [hidx]
      rcases Nat.lt_trichotomy k i with hki | hki | hki
      · rw [getD_append_left 0 _ _ (by rw [List.length_replicate]; omega),
          getD_replicate 0 0 (by omega), if_neg (by omega)]
      · subst hki
        rw [getD_append_r 0 _ _ (by rw [List.length_replicate]),
          List.length_replicate, Nat.sub_self, if_pos rfl]
        rfl
      · rw [getD_append_r 0 _ _ (by rw [List.length_replicate]; omega),
          List.length_replicate, if_neg (by omega)]
        have hidx2 : k - i = (k - i - 1) + 1 := by omega
        rw [hidx2, List.getD_cons_succ, getD_replicate 0 0 (by omega)]
    have hGJ : GJInv p n a tmp := by
      refine ⟨hdims.1, hdims.2, fun i c hi hc => ?_⟩
      rw [entry, hleft i c hi hc]
      rw [Finset.sum_eq_single i]
      · rw [entry, hright i i hi hi, if_pos rfl, entry]
        norm_num
      · intro k hk hki
        rw [entry, hright i k hi (Finset.mem_range.mp hk), if_neg hki]
        norm_num
      · intro hmem
        exact absurd (Finset.mem_range.mpr hi) hmem
    cases hg : gauss p n tmp with
    | none => rw [hg] at h; exact absurd h (by simp)
    | some m3 =>
      rw [hg, Option.map_some'] at h
      injection h with h
      have hB : B = m3.map (fun r => r.drop n) := h.symm
      have hGJ3 : GJInv p n a m3 := gauss_GJInv hg hGJ
      -- decompose the phases to obtain the identity left block
      rw [gauss] at hg
      rcases hfwd : forward p n tmp with - | m1
      · rw [hfwd] at hg; exact absurd hg (by simp)
      rw [hfwd, Option.some_bind] at hg
      rcases hbwd : backward p n m1 with - | m2
      · rw [hbwd] at hg; exact absurd hg (by simp)
      rw [hbwd, Option.some_bind] at hg
      rw [forward] at hfwd
      obtain ⟨hd1, hlow1⟩ := fwdOuter_spec n 0 tmp m1 hfwd (by omega) hdims
        (fun c r hc _ _ => absurd hc (by omega))
      rw [backward] at hbwd
      obtain ⟨hd2, hlow2, hup2⟩ := bwdOuter_spec n m1 m2 hbwd (le_refl n) hd1
        (by rwa [Nat.zero_add] at hlow1)
        (fun c r hc hcn _ => absurd hcn (by omega))
      obtain ⟨hd3, hid⟩ := scale_final hg hd2 hlow2 hup2
      have hBrow : ∀ i, B.getD i [] = (m3.getD i []).drop n := by
        intro i
        rw [hB]
        rcases Nat.lt_or_ge i m3.length with hi | hi
        · rw [List.getD_eq_getElem?_getD, List.getElem?_map,
            List.getElem?_eq_getElem hi]
          simp [List.getD_eq_getElem?_getD, List.getElem?_eq_getElem, hi]
        · rw [List.getD_eq_getElem?_getD, List.getElem?_map,
            List.getElem?_eq_none (by simpa using hi), List.getD_eq_getElem?_getD,
            List.getElem?_eq_none (by simpa using hi)]
          simp
      have hBentry : ∀ i k, entry p B i k = entry p m3 i (n + k) := by
        intro i k
        rw [entry, entry, getE, getE, hBrow i, getD_drop]
      refine ⟨by rw [hB, List.length_map, hd3.1], fun i hi => ?_, fun i c hi hc => ?_⟩
      · rw [hBrow i, List.length_drop, hd3.2 i hi]
        omega
      · have hsum : (∑ k in Finset.range n, entry p B i k * entry p a k c) =
            ∑ k in Finset.range n, entry p m3 i (n + k) * entry p a k c :=
          Finset.sum_congr rfl (fun k _ => by rw [hBentry i k])
        rw [hsum, ← hGJ3.2.2 i c hi hc]
        exact hid i c hi hc

/-! ### The degree-reduction coefficients `vandermond_first_row` -/

theorem vandermonde_length (D p : Nat) : (vandermonde D p).length = D := by
  rw [vandermonde, List.length_map, List.length_range]

theorem vandermonde_entry {D p : Nat} [NeZero p] {k c : Nat} (hk : k < D) (hc : c < D) :
    entry p (vandermonde D p) k c = ((k : ZMod p) + 1) ^ c := by
  rw [entry, getE, vandermonde, getD_map_range' [] _ hk, getD_map_range _ hc,
    ZMod.natCast_mod, Nat.cast_pow]
  push_cast
  rfl

/-- The first row `λ` of `utils.inverse` applied to the Vandermonde
matrix of `MpcBase.__init__` satisfies `Σ λ_k (k+1)^c = [c = 0]` for
every power `c < D` — whenever the inversion succeeds. -/
theorem vandermonde_lambda {p D : Nat} [NeZero p] {B : List (List Nat)} (hD : 0 < D)
    (hB : inverse (vandermonde D p) p = some B) :
    (B.getD 0 []).length = D ∧
    ∀ c, c < D →
      (∑ k in Finset.range D, (((B.getD 0 []).getD k 0 : Nat) : ZMod p) *
        ((k : ZMod p) + 1) ^ c) = if c = 0 then 1 else 0 := by
  obtain ⟨hBlen, hBrows, hmul⟩ := inverse_mul hB
  rw [vandermonde_length] at hBlen hBrows hmul
  refine ⟨hBrows 0 hD, fun c hc => ?_⟩
  have h0 := hmul 0 c hD hc
  have hsum : (∑ k in Finset.range D, entry p B 0 k * entry p (vandermonde D p) k c) =
      ∑ k in Finset.range D, (((B.getD 0 []).getD k 0 : Nat) : ZMod p) *
        ((k : ZMod p) + 1) ^ c := by
    refine Finset.sum_congr rfl (fun k hk => ?_)
    rw [vandermonde_entry (Finset.mem_range.mp hk) hc]
    rfl
  rw [hsum] at h0
  rw [h0]
  by_cases hc0 : c = 0
  · rw [if_pos hc0, if_pos (by omega)]
  · rw [if_neg hc0, if_neg (by omega)]

/-- Extension of the dot-product identity from monomials to every
polynomial of degree `< D`: `Σ λ_k f(k+1) = f(0)`. -/
theorem lambda_poly_eval {p D : Nat} [NeZero p] {lam : List Nat} (hD : 0 < D)
    (hlam : ∀ c, c < D →
      (∑ k in Finset.range D, ((lam.getD k 0 : Nat) : ZMod p) *
        ((k : ZMod p) + 1) ^ c) = if c = 0 then 1 else 0)
    (f : Polynomial (ZMod p)) (hdeg : f.degree < (D : WithBot Nat)) :
    (∑ k in Finset.range D, ((lam.getD k 0 : Nat) : ZMod p) *
      Polynomial.eval ((k : ZMod p) + 1) f) = Polynomial.eval 0 f := by
  by_cases hf0 : f = 0
  · subst hf0
    simp
  · have hnd : f.natDegree < D := by
      rw [Polynomial.natDegree_lt_iff_degree_lt hf0]
      exact_mod_cast hdeg
    have heval : ∀ x : ZMod p, Polynomial.eval x f =
        ∑ c in Finset.range D, f.coeff c * x ^ c := fun x =>
      Polynomial.eval_eq_sum_range' hnd x
    calc (∑ k in Finset.range D, ((lam.getD k 0 : Nat) : ZMod p) *
            Polynomial.eval ((k : ZMod p) + 1) f)
        = ∑ k in Finset.range D, ∑ c in Finset.range D,
            ((lam.getD k 0 : Nat) : ZMod p) * (f.coeff c * ((k : ZMod p) + 1) ^ c) := by
          refine Finset.sum_congr rfl (fun k _ => ?_)
          rw [heval, Finset.mul_sum]
      _ = ∑ c in Finset.range D, ∑ k in Finset.range D,
            ((lam.getD k 0 : Nat) : ZMod p) * (f.coeff c * ((k : ZMod p) + 1) ^ c) :=
          Finset.sum_comm
      _ = ∑ c in Finset.range D, f.coeff c *
            ∑ k in Finset.range D, ((lam.getD k 0 : Nat) : ZMod p) *
              ((k : ZMod p) + 1) ^ c := by
          refine Finset.sum_congr rfl (fun c _ => ?_)
          rw [Finset.mul_sum]
          exact Finset.sum_congr rfl (fun k _ => by ring)
      _ = ∑ c in Finset.range D, f.coeff c * (if c = 0 then 1 else 0) := by
          refine Finset.sum_congr rfl (fun c hc => ?_)
          rw [hlam c (Finset.mem_range.mp hc)]
      _ = f.coeff 0 := by
          rw [Finset.sum_eq_single 0]
          · rw [if_pos rfl, mul_one]
          · intro c _ hc0
            rw [if_neg hc0, mul_zero]
          · intro hmem
            exact absurd (Finset.mem_range.mpr hD) hmem
      _ = Polynomial.eval 0 f := (Polynomial.coeff_zero_eq_eval_zero f)

/-! ## The MPC multiplication protocols, as global data flows

The `D` talliers are modelled jointly: a protocol run is a function from
every tallier's inputs and local randomness to the list of every
tallier's output share.  `exchange` (mpc.py:70-76) delivers value `i` of
tallier `j`'s vector to tallier `i` and vice versa, so after an exchange
of locally generated share vectors, tallier `j` holds share `j` of every
tallier's vector — which is exactly how the definitions below index. -/

/-- `MpcWinner.bgw_multiply` (mpc.py:78-80), run by all `D` talliers on
share vectors `ash`, `bsh`.  Tallier `i` re-shares `(a_i * b_i) % p`
with its sampled coefficients `rands[i]` (threshold `t = (D+1)//2`, from
`MpcBase.gen_shamir`, mpc.py:55); after the exchange each tallier `j`
degree-reduces with `lam = vandermond_first_row`:
`sum(lam[i] * h_i[j]) % p`. -/
def bgw_multiply_global (p D t : Nat) (lam ash bsh : List Nat)
    (rands : List (List Nat)) : List Nat :=
  (List.range D).map (fun j =>
    (∑ i in Finset.range D, lam.getD i 0 *
      (clean_gen_shamir (ash.getD i 0 * bsh.getD i 0 % p) D t p (rands.getD i [])).getD j 0) % p)

/-- The share each tallier `j` ends up with after every tallier `i`
re-shares its local value `vals[i]` with threshold `thr` and the vectors
are exchanged and summed (the `r_d` / `r_2d` computation of
`rnd_multiply`, mpc.py:89-90). -/
def sumShares (p D thr : Nat) (vals : List Nat) (rnds : List (List Nat)) : List Nat :=
  (List.range D).map (fun j =>
    (∑ i in Finset.range D,
      (clean_gen_shamir (vals.getD i 0) D thr p (rnds.getD i [])).getD j 0) % p)

/-- `MpcWinner.rnd_multiply` (mpc.py:82-111), run by all `D` talliers.
Tallier `i` samples `rs[i] = r_i` and re-shares it both with threshold
`d = (D+1)//2` (coefficients `randd[i]`) and threshold `2d-1`
(coefficients `rand2d[i]`); the exchanged sums give each tallier `j` its
shares `r_d[j]` and `r_2d[j]`; `w[j] = (a_j*b_j + r_2d[j]) % p` is sent
to the designated tallier, which reconstructs the public
`w = utils.resolve(w_shares, p)` and broadcasts it (`none` models the
`ValueError` it would raise); every tallier returns `(w - r_d) % p`. -/
def rnd_multiply_global (p D : Nat) (ash bsh rs : List Nat)
    (randd rand2d : List (List Nat)) : Option (List Nat) :=
  (resolve ((List.range D).map (fun j =>
      (ash.getD j 0 * bsh.getD j 0 +
        (sumShares p D (2 * ((D + 1) / 2) - 1) rs rand2d).getD j 0) % p)) p).map
    (fun (wpub : Nat) => (List.range D).map (fun j =>
      pymod ((wpub : Int) - (((sumShares p D ((D + 1) / 2) rs randd).getD j 0 : Nat) : Int)) p))

theorem degree_range_sum_lt {p D t : Nat} (g : Nat → Polynomial (ZMod p))
    (hg : ∀ i, i < D → (g i).degree < (t : WithBot Nat)) :
    (∑ i in Finset.range D, g i).degree < (t : WithBot Nat) := by
  refine lt_of_le_of_lt (Polynomial.degree_sum_le _ _) ?_
  refine (Finset.sup_lt_iff (by exact_mod_cast WithBot.bot_lt_coe t)).mpr ?_
  intro i hi
  exact hg i (Finset.mem_range.mp hi)

theorem polyOf_degree_le {p : Nat} (l : List Nat) (t : Nat) (hl : l.length ≤ t + 1) :
    (polyOf p l).degree ≤ (t : WithBot Nat) := by
  refine le_trans (Polynomial.degree_sum_le _ _) (Finset.sup_le (fun i hi => ?_))
  refine le_trans (Polynomial.degree_C_mul_X_pow_le _ _) ?_
  exact_mod_cast (by have := Finset.mem_range.mp hi; omega : i ≤ t)

theorem sumShares_length (p D thr : Nat) (vals : List Nat) (rnds : List (List Nat)) :
    (sumShares p D thr vals rnds).length = D := by
  rw [sumShares, List.length_map, List.length_range]

theorem sumShares_cast {p D thr : Nat} [NeZero p] (vals : List Nat)
    (rnds : List (List Nat)) {j : Nat} (hj : j < D) :
    (((sumShares p D thr vals rnds).getD j 0 : Nat) : ZMod p) =
      Polynomial.eval ((j : ZMod p) + 1)
        (∑ i in Finset.range D, polyOf p (vals.getD i 0 :: (rnds.getD i []).take (thr - 1))) := by
  rw [sumShares, getD_map_range _ hj, ZMod.natCast_mod, Nat.cast_sum, Polynomial.eval_finset_sum]
  exact Finset.sum_congr rfl (fun i _ => clean_gen_shamir_cast _ _ _ _ hj)

theorem sumPoly_eval_zero {p D thr : Nat} (vals : List Nat) (rnds : List (List Nat)) :
    Polynomial.eval 0
        (∑ i in Finset.range D, polyOf p (vals.getD i 0 :: (rnds.getD i []).take (thr - 1))) =
      ∑ i in Finset.range D, ((vals.getD i 0 : Nat) : ZMod p) := by
  rw [Polynomial.eval_finset_sum]
  exact Finset.sum_congr rfl (fun i _ => polyOf_eval_zero _ _)

theorem sumPoly_degree_lt {p D thr : Nat} (vals : List Nat) (rnds : List (List Nat))
    (ht : 0 < thr) :
    (∑ i in Finset.range D,
        polyOf p (vals.getD i 0 :: (rnds.getD i []).take (thr - 1))).degree <
      (thr : WithBot Nat) :=
  degree_range_sum_lt _ (fun i _ => polyOf_degree_lt _
    (by simp only [List.length_cons, List.length_take]; omega) ht)

/-- Correctness of the joint `bgw_multiply` round for arbitrary input
share vectors: if the two inputs are evaluations of polynomials `F`, `G`
(degree `≤ t-1` each) at the nodes `1..D`, the outputs resolve to
`F(0) * G(0)` — for any local re-sharing randomness, given the
`vandermond_first_row` identity for `lam`. -/
theorem bgw_resolve {p D t : Nat} [hp : Fact (Nat.Prime p)] (hD : 0 < D) (hDp : D ≤ p)
    (htpos : 0 < t) (htD : t ≤ D) {lam : List Nat}
    (hlam : ∀ c, c < D →
      (∑ k in Finset.range D, ((lam.getD k 0 : Nat) : ZMod p) *
        ((k : ZMod p) + 1) ^ c) = if c = 0 then 1 else 0)
    (ash bsh : List Nat) (F G : Polynomial (ZMod p))
    (hFG : (F * G).degree < (D : WithBot Nat))
    (hashc : ∀ i, i < D → ((ash.getD i 0 : Nat) : ZMod p) = Polynomial.eval ((i : ZMod p) + 1) F)
    (hbshc : ∀ i, i < D → ((bsh.getD i 0 : Nat) : ZMod p) = Polynomial.eval ((i : ZMod p) + 1) G)
    (rands : List (List Nat)) :
    resolve (bgw_multiply_global p D t lam ash bsh rands) p =
      some ((Polynomial.eval 0 F * Polynomial.eval 0 G).val) := by
  haveI : NeZero p := ⟨hp.out.ne_zero⟩
  have hprod : ∀ i, i < D → ((ash.getD i 0 * bsh.getD i 0 % p : Nat) : ZMod p) =
      Polynomial.eval ((i : ZMod p) + 1) (F * G) := by
    intro i hi
    rw [ZMod.natCast_mod, Nat.cast_mul, hashc i hi, hbshc i hi, Polynomial.eval_mul]
  set H : Nat → Polynomial (ZMod p) := fun i =>
    polyOf p ((ash.getD i 0 * bsh.getD i 0 % p) :: (rands.getD i []).take (t - 1)) with hHdef
  set S := ∑ i in Finset.range D, Polynomial.C ((lam.getD i 0 : Nat) : ZMod p) * H i
    with hSdef
  have hSdeg : S.degree < (D : WithBot Nat) := by
    refine degree_range_sum_lt _ (fun i hi => ?_)
    calc (Polynomial.C ((lam.getD i 0 : Nat) : ZMod p) * H i).degree
        ≤ (Polynomial.C ((lam.getD i 0 : Nat) : ZMod p)).degree + (H i).degree :=
          Polynomial.degree_mul_le _ _
      _ ≤ 0 + (H i).degree := add_le_add_right Polynomial.degree_C_le _
      _ = (H i).degree := zero_add _
      _ < (t : WithBot Nat) := polyOf_degree_lt _
          (by simp only [List.length_cons, List.length_take]; omega) htpos
      _ ≤ (D : WithBot Nat) := by exact_mod_cast htD
  have houtlen : (bgw_multiply_global p D t lam ash bsh rands).length = D := by
    rw [bgw_multiply_global, List.length_map, List.length_range]
  have houtc : ∀ j, j < D →
      (((bgw_multiply_global p D t lam ash bsh rands).getD j 0 : Nat) : ZMod p) =
        Polynomial.eval ((j : ZMod p) + 1) S := by
    intro j hj
    rw [bgw_multiply_global, getD_map_range _ hj, ZMod.natCast_mod, Nat.cast_sum,
      hSdef, Polynomial.eval_finset_sum]
    refine Finset.sum_congr rfl (fun i hi => ?_)
    rw [Nat.cast_mul, Polynomial.eval_mul, Polynomial.eval_C,
      clean_gen_shamir_cast _ _ _ _ hj]
  have hS0 : Polynomial.eval 0 S = Polynomial.eval 0 F * Polynomial.eval 0 G := by
    rw [hSdef, Polynomial.eval_finset_sum]
    have hterm : ∀ i ∈ Finset.range D,
        Polynomial.eval 0 (Polynomial.C ((lam.getD i 0 : Nat) : ZMod p) * H i) =
          ((lam.getD i 0 : Nat) : ZMod p) *
            Polynomial.eval ((i : ZMod p) + 1) (F * G) := by
      intro i hi
      rw [Polynomial.eval_mul, Polynomial.eval_C, hHdef, polyOf_eval_zero,
        hprod i (Finset.mem_range.mp hi)]
    rw [Finset.sum_congr rfl hterm, lambda_poly_eval hD hlam (F * G) hFG,
      Polynomial.eval_mul]
  have hres := resolve_eval hD hDp S hSdeg _ houtlen houtc
  rw [hres, hS0]

/-- C2 (amended): for every prime `p ≥ D`, secrets `a, b < p`, every
degree-`(t-1)` sharing of `a` and `b` (`t = (D+1)//2`, arbitrary sampled
coefficients `fr`, `gr`), and every choice of each tallier's local
random values, both multiplication variants produce a share vector whose
`utils.resolve` reconstruction is `(a*b) % p` — given that the talliers'
shared setup succeeded, i.e. `utils.inverse` on the Vandermonde matrix
returned a matrix `B` (its first row is `vandermond_first_row`,
mpc.py:54; an `MpcWinner` only exists when that call returned). -/
theorem C2_multiplication (p D t : Nat) [hp : Fact (Nat.Prime p)] (hD : 0 < D) (hDp : D ≤ p)
    (ht : t = (D + 1) / 2) (a b : Nat) (ha : a < p) (hb : b < p)
    (fr gr : List Nat) (B : List (List Nat))
    (hB : inverse (vandermonde D p) p = some B)
    (rands : List (List Nat)) (rs : List Nat) (randd rand2d : List (List Nat)) :
    resolve (bgw_multiply_global p D t (B.getD 0 [])
        (clean_gen_shamir a D t p fr) (clean_gen_shamir b D t p gr) rands) p =
      some (a * b % p) ∧
    (rnd_multiply_global p D (clean_gen_shamir a D t p fr) (clean_gen_shamir b D t p gr)
        rs randd rand2d).bind (fun out => resolve out p) = some (a * b % p) := by
  haveI : NeZero p := ⟨hp.out.ne_zero⟩
  have htpos : 0 < t := by omega
  have htD : t ≤ D := by omega
  set F := polyOf p (a :: fr.take (t - 1)) with hFdef
  set G := polyOf p (b :: gr.take (t - 1)) with hGdef
  set ash := clean_gen_shamir a D t p fr with hashdef
  set bsh := clean_gen_shamir b D t p gr with hbshdef
  have hashc : ∀ i, i < D → ((ash.getD i 0 : Nat) : ZMod p) =
      Polynomial.eval ((i : ZMod p) + 1) F :=
    fun i hi => clean_gen_shamir_cast a D t fr hi
  have hbshc : ∀ i, i < D → ((bsh.getD i 0 : Nat) : ZMod p) =
      Polynomial.eval ((i : ZMod p) + 1) G :=
    fun i hi => clean_gen_shamir_cast b D t gr hi
  have hFle : F.degree ≤ ((t - 1 : Nat) : WithBot Nat) :=
    polyOf_degree_le _ _ (by simp only [List.length_cons, List.length_take]; omega)
  have hGle : G.degree ≤ ((t - 1 : Nat) : WithBot Nat) :=
    polyOf_degree_le _ _ (by simp only [List.length_cons, List.length_take]; omega)
  have hFG : (F * G).degree < (D : WithBot Nat) := by
    refine lt_of_le_of_lt (Polynomial.degree_mul_le F G) ?_
    refine lt_of_le_of_lt (add_le_add hFle hGle) ?_
    rw [← Nat.cast_add]
    exact_mod_cast (by omega : (t - 1) + (t - 1) < D)
  have hprod : ∀ i, i < D → ((ash.getD i 0 * bsh.getD i 0 % p : Nat) : ZMod p) =
      Polynomial.eval ((i : ZMod p) + 1) (F * G) := by
    intro i hi
    rw [ZMod.natCast_mod, Nat.cast_mul, hashc i hi, hbshc i hi, Polynomial.eval_mul]
  have hFG0 : Polynomial.eval 0 (F * G) = ((a * b % p : Nat) : ZMod p) := by
    rw [Polynomial.eval_mul, hFdef, hGdef, polyOf_eval_zero, polyOf_eval_zero,
      ZMod.natCast_mod, Nat.cast_mul]
  constructor
  · -- bgw_multiply
    obtain ⟨hlamlen, hlam⟩ := vandermonde_lambda hD hB
    have hres := bgw_resolve hD hDp htpos htD hlam ash bsh F G hFG hashc hbshc rands
    rw [hres, hFdef, hGdef, polyOf_eval_zero, polyOf_eval_zero, ← Nat.cast_mul,
      ZMod.val_natCast]
  · -- rnd_multiply
    rw [rnd_multiply_global, ← ht]
    set Psum := ∑ i in Finset.range D,
      polyOf p (rs.getD i 0 :: (randd.getD i []).take (t - 1)) with hPdef
    set Qsum := ∑ i in Finset.range D,
      polyOf p (rs.getD i 0 :: (rand2d.getD i []).take (2 * t - 1 - 1)) with hQdef
    set W := F * G + Qsum with hWdef
    have hQdeg : Qsum.degree < ((2 * t - 1 : Nat) : WithBot Nat) :=
      sumPoly_degree_lt _ _ (by omega)
    have hWdeg : W.degree < (D : WithBot Nat) := by
      refine lt_of_le_of_lt (Polynomial.degree_add_le _ _) (max_lt hFG ?_)
      exact lt_of_lt_of_le hQdeg (by exact_mod_cast (by omega : 2 * t - 1 ≤ D))
    have hwlen : ((List.range D).map (fun j =>
        (ash.getD j 0 * bsh.getD j 0 +
          (sumShares p D (2 * t - 1) rs rand2d).getD j 0) % p)).length = D := by
      rw [List.length_map, List.length_range]
    have hwc : ∀ j, j < D →
        ((((List.range D).map (fun j =>
          (ash.getD j 0 * bsh.getD j 0 +
            (sumShares p D (2 * t - 1) rs rand2d).getD j 0) % p)).getD j 0 : Nat) : ZMod p) =
          Polynomial.eval ((j : ZMod p) + 1) W := by
      intro j hj
      rw [getD_map_range _ hj, ZMod.natCast_mod, Nat.cast_add, Nat.cast_mul,
        hashc j hj, hbshc j hj, sumShares_cast rs rand2d hj, hWdef,
        Polynomial.eval_add, Polynomial.eval_mul, hQdef]
    have hwres := resolve_eval hD hDp W hWdeg _ hwlen hwc
    rw [hwres]
    rw [Option.map_some', Option.some_bind]
    set T := Polynomial.C (Polynomial.eval 0 W) - Psum with hTdef
    have hTdeg : T.degree < (D : WithBot Nat) := by
      refine lt_of_le_of_lt (Polynomial.degree_sub_le _ _) (max_lt ?_ ?_)
      · exact lt_of_le_of_lt Polynomial.degree_C_le
          (by exact_mod_cast (by omega : 0 < D))
      · exact lt_of_lt_of_le (sumPoly_degree_lt _ _ (by omega))
          (by exact_mod_cast htD)
    have houtlen2 : ((List.range D).map (fun j =>
        pymod (((Polynomial.eval 0 W).val : Int) -
          (((sumShares p D t rs randd).getD j 0 : Nat) : Int)) p)).length = D := by
      rw [List.length_map, List.length_range]
    have houtc2 : ∀ j, j < D →
        ((((List.range D).map (fun j =>
          pymod (((Polynomial.eval 0 W).val : Int) -
            (((sumShares p D t rs randd).getD j 0 : Nat) : Int)) p)).getD j 0 : Nat) :
              ZMod p) =
          Polynomial.eval ((j : ZMod p) + 1) T := by
      intro j hj
      rw [getD_map_range _ hj, pymod_cast, Int.cast_sub, Int.cast_natCast,
        Int.cast_natCast, ZMod.natCast_val, ZMod.cast_id, sumShares_cast rs randd hj,
        hTdef, Polynomial.eval_sub, Polynomial.eval_C, hPdef]
    have hres2 := resolve_eval hD hDp T hTdeg _ houtlen2 houtc2
    rw [hres2]
    have hT0 : Polynomial.eval 0 T = ((a * b % p : Nat) : ZMod p) := by
      rw [hTdef, Polynomial.eval_sub, Polynomial.eval_C, hWdef, Polynomial.eval_add,
        hFG0, hQdef, hPdef, sumPoly_eval_zero, sumPoly_eval_zero]
      ring
    rw [hT0, ZMod.val_natCast, Nat.mod_mod_of_dvd _ dvd_rfl]

/-- Counterexample to C2 as stated: at the prime `p = 2` with `D = 3`
talliers, `a = b = 1` shared with zero randomness, `rnd_multiply`
aborts — the designated tallier's `utils.resolve` call raises
`ValueError` — so no resolution equal to `(a*b) % p` is produced; the
`bgw` path cannot even be set up, since `utils.inverse` fails on the
Vandermonde matrix modulo 2. -/
theorem C2_counterexample :
    (rnd_multiply_global 2 3 (clean_gen_shamir 1 3 2 2 []) (clean_gen_shamir 1 3 2 2 [])
        [0, 0, 0] [[], [], []] [[], [], []]).bind (fun out => resolve out 2) = none ∧
    inverse (vandermonde 3 2) 2 = none ∧ Nat.Prime 2 :=
  ⟨by decide, by decide, by norm_num⟩

/-- Witness for C2: `p = 5`, `D = 3`, `t = 2`, secrets `a = 2`, `b = 3`,
with concrete sharing and protocol randomness, both variants resolve to
`(2*3) % 5 = 1`. -/
theorem C2_witness :
    resolve (bgw_multiply_global 5 3 2 [3, 2, 1] (clean_gen_shamir 2 3 2 5 [1])
        (clean_gen_shamir 3 3 2 5 [4]) [[2], [0], [1]]) 5 = some (2 * 3 % 5) ∧
    (rnd_multiply_global 5 3 (clean_gen_shamir 2 3 2 5 [1]) (clean_gen_shamir 3 3 2 5 [4])
        [1, 2, 3] [[0], [4], [2]] [[1, 3], [0, 0], [2, 2]]).bind
      (fun out => resolve out 5) = some (2 * 3 % 5) :=
  C2_multiplication 5 3 2 (by decide) (by decide) (by decide) 2 3 (by decide) (by decide)
    [1] [4] [[3, 2, 1], [0, 4, 1], [3, 4, 3]] (by decide)
    [[2], [0], [1]] [1, 2, 3] [[0], [4], [2]] [[1, 3], [0, 0], [2, 2]]

/-! ## Plurality ballot validation (MpcValidation) -/

theorem list_sum_getD : ∀ l : List Nat, l.sum = ∑ i in Finset.range l.length, l.getD i 0
  | [] => rfl
  | a :: l => by
    rw [List.sum_cons, List.length_cons, Finset.sum_range_succ', list_sum_getD l]
    simp [Nat.add_comm]

theorem forall_mem_getD (l : List Nat) (P : Nat → Prop) :
    (∀ v ∈ l, P v) ↔ ∀ m, m < l.length → P (l.getD m 0) := by
  constructor
  · intro h m hm
    refine h _ ?_
    rw [List.getD_eq_getElem _ _ hm]
    exact List.getElem_mem hm
  · intro h v hv
    obtain ⟨m, hm, hv⟩ := List.mem_iff_getElem.mp hv
    have := h m hm
    rwa [List.getD_eq_getElem _ _ hm, hv] at this

/-- Coordinate `m`'s column of a tallier-indexed matrix of share
vectors: the `D` talliers' shares of that single coordinate. -/
def column (xsh : List (List Nat)) (D m : Nat) : List Nat :=
  (List.range D).map (fun j => (xsh.getD j []).getD m 0)

/-- `MpcValidation.validate_plurality` (mpc.py:332-335), run jointly by
the `D` talliers on a tallier-indexed matrix `xsh` of ballot share
vectors (`M` coordinates each).  Per the source: the complement shares
are `(1 - a) % p` (`__calc_complement`, mpc.py:324-325); `multiply`
(mpc.py:293-295) is the coordinatewise `bgw` round with per-tallier,
per-coordinate re-sharing randomness `rands`; the tuple
`(sum(votes) % p, ) + a_i` is resolved coordinatewise (`resolve`,
mpc.py:297-299, which applies `utils.resolve` to the exchanged shares
of each coordinate); the ballot is accepted iff `s == 1` and every
product resolves to 0.  All talliers compute the same clear values, so
the joint run returns a single boolean. -/
def validate_plurality_global (p D t M : Nat) (lam : List Nat) (xsh : List (List Nat))
    (rands : List (List (List Nat))) : Option Bool :=
  (resolve ((List.range D).map
      (fun j => (∑ m in Finset.range M, (xsh.getD j []).getD m 0) % p)) p).bind
    (fun (s : Nat) => (mapMO (fun m => resolve
        (bgw_multiply_global p D t lam (column xsh D m)
          ((List.range D).map (fun j => pymod (1 - ((xsh.getD j []).getD m 0 : Int)) p))
          ((List.range D).map (fun i => (rands.getD i []).getD m []))) p)
      (List.range M)).map
      (fun rsv => decide (s = 1) && rsv.all (fun r => r == 0)))

/-- C3: for every plurality election over `M` candidates (prime `p ≥ D`,
threshold `t = (D+1)//2`, successfully constructed degree-reduction row
from `utils.inverse`), every ballot `x` of `M` field elements, every
choice of sharing coefficients and of the talliers' multiplication
randomness: `validate_plurality` returns true on every tallier iff every
coordinate of `x` is 0 or 1 and the coordinates sum to 1 modulo `p`. -/
theorem C3_validate_plurality (p D t M : Nat) [hp : Fact (Nat.Prime p)] (hD : 0 < D)
    (hDp : D ≤ p) (ht : t = (D + 1) / 2) (x : List Nat) (hxlen : x.length = M)
    (hx : ∀ v ∈ x, v < p) (B : List (List Nat)) (hB : inverse (vandermonde D p) p = some B)
    (coefs : List (List Nat)) (rands : List (List (List Nat))) :
    validate_plurality_global p D t M (B.getD 0 [])
        ((List.range D).map (fun j => (List.range M).map (fun m =>
          (clean_gen_shamir (x.getD m 0) D t p (coefs.getD m [])).getD j 0)))
        rands =
      some (decide ((∀ v ∈ x, v = 0 ∨ v = 1) ∧ x.sum % p = 1)) := by
  haveI : NeZero p := ⟨hp.out.ne_zero⟩
  haveI : Fact (1 < p) := ⟨hp.out.one_lt⟩
  have htpos : 0 < t := by omega
  have htD : t ≤ D := by omega
  obtain ⟨hlamlen, hlam⟩ := vandermonde_lambda hD hB
  set xsh := (List.range D).map (fun j => (List.range M).map (fun m =>
    (clean_gen_shamir (x.getD m 0) D t p (coefs.getD m [])).getD j 0)) with hxshdef
  have hx_entry : ∀ j m, j < D → m < M → (xsh.getD j []).getD m 0 =
      (clean_gen_shamir (x.getD m 0) D t p (coefs.getD m [])).getD j 0 := by
    intro j m hj hm
    rw [hxshdef, getD_map_range' [] _ hj, getD_map_range _ hm]
  set Fm : Nat → Polynomial (ZMod p) := fun m =>
    polyOf p (x.getD m 0 :: (coefs.getD m []).take (t - 1)) with hFmdef
  have hxm : ∀ m, m < M → x.getD m 0 < p := by
    rw [← hxlen] at *
    exact (forall_mem_getD x (fun v => v < p)).mp hx
  have hFm0 : ∀ m, Polynomial.eval 0 (Fm m) = ((x.getD m 0 : Nat) : ZMod p) := by
    intro m
    rw [hFmdef]
    exact polyOf_eval_zero _ _
  have hFmle : ∀ m, (Fm m).degree ≤ ((t - 1 : Nat) : WithBot Nat) := by
    intro m
    rw [hFmdef]
    exact polyOf_degree_le _ _ (by simp only [List.length_cons, List.length_take]; omega)
  -- the resolved sum coordinate
  have hsumlen : ((List.range D).map
      (fun j => (∑ m in Finset.range M, (xsh.getD j []).getD m 0) % p)).length = D := by
    rw [List.length_map, List.length_range]
  have hsumc : ∀ j, j < D →
      ((((List.range D).map
        (fun j => (∑ m in Finset.range M, (xsh.getD j []).getD m 0) % p)).getD j 0 : Nat) :
          ZMod p) =
        Polynomial.eval ((j : ZMod p) + 1) (∑ m in Finset.range M, Fm m) := by
    intro j hj
    rw [getD_map_range _ hj, ZMod.natCast_mod, Nat.cast_sum, Polynomial.eval_finset_sum]
    refine Finset.sum_congr rfl (fun m hm => ?_)
    rw [hx_entry j m hj (Finset.mem_range.mp hm), hFmdef,
      clean_gen_shamir_cast _ _ _ _ hj]
  have hsumdeg : (∑ m in Finset.range M, Fm m).degree < (D : WithBot Nat) :=
    degree_range_sum_lt _ (fun m _ => lt_of_le_of_lt (hFmle m)
      (by exact_mod_cast (by omega : t - 1 < D)))
  have hsumres := resolve_eval hD hDp _ hsumdeg _ hsumlen hsumc
  have hsum0 : (Polynomial.eval 0 (∑ m in Finset.range M, Fm m)).val = x.sum % p := by
    rw [Polynomial.eval_finset_sum]
    have : (∑ m in Finset.range M, Polynomial.eval 0 (Fm m)) = ((x.sum : Nat) : ZMod p) := by
      rw [list_sum_getD x, hxlen, Nat.cast_sum]
      exact Finset.sum_congr rfl (fun m _ => hFm0 m)
    rw [this, ZMod.val_natCast]
  -- the resolved product coordinates
  have hmres : ∀ m, m < M →
      resolve (bgw_multiply_global p D t (B.getD 0 []) (column xsh D m)
        ((List.range D).map (fun j => pymod (1 - ((xsh.getD j []).getD m 0 : Int)) p))
        ((List.range D).map (fun i => (rands.getD i []).getD m []))) p =
      some ((((x.getD m 0 : Nat) : ZMod p) * (1 - ((x.getD m 0 : Nat) : ZMod p))).val) := by
    intro m hm
    have hashc : ∀ i, i < D → (((column xsh D m).getD i 0 : Nat) : ZMod p) =
        Polynomial.eval ((i : ZMod p) + 1) (Fm m) := by
      intro i hi
      rw [column, getD_map_range _ hi, hx_entry i m hi hm, hFmdef,
        clean_gen_shamir_cast _ _ _ _ hi]
    have hbshc : ∀ i, i < D →
        ((((List.range D).map
          (fun j => pymod (1 - ((xsh.getD j []).getD m 0 : Int)) p)).getD i 0 : Nat) :
            ZMod p) =
          Polynomial.eval ((i : ZMod p) + 1) (1 - Fm m) := by
      intro i hi
      rw [getD_map_range _ hi, pymod_cast, Int.cast_sub, Int.cast_one, Int.cast_natCast,
        Polynomial.eval_sub, Polynomial.eval_one, hx_entry i m hi hm, hFmdef,
        clean_gen_shamir_cast _ _ _ _ hi]
    have hGle : (1 - Fm m).degree ≤ ((t - 1 : Nat) : WithBot Nat) := by
      refine le_trans (Polynomial.degree_sub_le _ _) (max_le ?_ (hFmle m))
      exact le_trans Polynomial.degree_one_le (by exact_mod_cast Nat.zero_le (t - 1))
    have hFG : (Fm m * (1 - Fm m)).degree < (D : WithBot Nat) := by
      refine lt_of_le_of_lt (Polynomial.degree_mul_le _ _) ?_
      refine lt_of_le_of_lt (add_le_add (hFmle m) hGle) ?_
      rw [← Nat.cast_add]
      exact_mod_cast (by omega : (t - 1) + (t - 1) < D)
    have h := bgw_resolve hD hDp htpos htD hlam (column xsh D m)
      ((List.range D).map (fun j => pymod (1 - ((xsh.getD j []).getD m 0 : Int)) p))
      (Fm m) (1 - Fm m) hFG hashc hbshc
      ((List.range D).map (fun i => (rands.getD i []).getD m []))
    rw [h, hFm0 m, Polynomial.eval_sub, Polynomial.eval_one, hFm0 m]
  have hmapm := mapMO_eq_map
    (fun m => resolve (bgw_multiply_global p D t (B.getD 0 []) (column xsh D m)
      ((List.range D).map (fun j => pymod (1 - ((xsh.getD j []).getD m 0 : Int)) p))
      ((List.range D).map (fun i => (rands.getD i []).getD m []))) p)
    (fun m => (((x.getD m 0 : Nat) : ZMod p) * (1 - ((x.getD m 0 : Nat) : ZMod p))).val)
    (List.range M) (fun m hm => hmres m (List.mem_range.mp hm))
  rw [validate_plurality_global, hsumres, Option.some_bind, hmapm, Option.map_some']
  congr 1
  rw [Bool.eq_iff_iff]
  simp only [Bool.and_eq_true, decide_eq_true_eq, List.all_eq_true, List.mem_map,
    List.mem_range, beq_iff_eq, forall_exists_index, and_imp,
    forall_apply_eq_imp_iff₂]
  constructor
  · intro ⟨hs, hz⟩
    refine ⟨?_, by rwa [hsum0] at hs⟩
    rw [forall_mem_getD, hxlen]
    intro m hm
    have h0 := hz m hm
    rw [ZMod.val_eq_zero, mul_eq_zero, sub_eq_zero] at h0
    rcases h0 with h0 | h0
    · left
      have := congrArg ZMod.val h0
      rwa [ZMod.val_natCast_of_lt (hxm m hm), ZMod.val_zero] at this
    · right
      have := congrArg ZMod.val h0.symm
      rwa [ZMod.val_natCast_of_lt (hxm m hm), ZMod.val_one] at this
  · intro ⟨hz, hs⟩
    refine ⟨by rwa [hsum0], ?_⟩
    intro m hm
    rw [ZMod.val_eq_zero, mul_eq_zero, sub_eq_zero]
    rw [forall_mem_getD, hxlen] at hz
    rcases hz m hm with h0 | h0
    · left
      rw [h0, Nat.cast_zero]
    · right
      rw [h0, Nat.cast_one]

/-- Witness for C3 with `p = 5`, `D = 3`, `M = 3`: ballot `(0,1,0)`
validates true, while `(1,1,0)` and `(2,0,0)` validate false. -/
theorem C3_witness :
    validate_plurality_global 5 3 2 3 [3, 2, 1]
        ((List.range 3).map (fun j => (List.range 3).map (fun m =>
          (clean_gen_shamir ([0, 1, 0].getD m 0) 3 2 5 ([[1], [4], [2]].getD m [])).getD j 0)))
        [] = some true ∧
    validate_plurality_global 5 3 2 3 [3, 2, 1]
        ((List.range 3).map (fun j => (List.range 3).map (fun m =>
          (clean_gen_shamir ([1, 1, 0].getD m 0) 3 2 5 ([[1], [4], [2]].getD m [])).getD j 0)))
        [] = some false ∧
    validate_plurality_global 5 3 2 3 [3, 2, 1]
        ((List.range 3).map (fun j => (List.range 3).map (fun m =>
          (clean_gen_shamir ([2, 0, 0].getD m 0) 3 2 5 ([[1], [4], [2]].getD m [])).getD j 0)))
        [] = some false :=
  ⟨C3_validate_plurality 5 3 2 3 (by decide) (by decide) (by decide) [0, 1, 0] (by decide)
      (by decide) [[3, 2, 1], [0, 4, 1], [3, 4, 3]] (by decide) [[1], [4], [2]] [],
    C3_validate_plurality 5 3 2 3 (by decide) (by decide) (by decide) [1, 1, 0] (by decide)
      (by decide) [[3, 2, 1], [0, 4, 1], [3, 4, 3]] (by decide) [[1], [4], [2]] [],
    C3_validate_plurality 5 3 2 3 (by decide) (by decide) (by decide) [2, 0, 0] (by decide)
      (by decide) [[3, 2, 1], [0, 4, 1], [3, 4, 3]] (by decide) [[1], [4], [2]] []⟩

/-! ## C9: the Gauss–Jordan pivot-search bug -/

/-- C9 (code bug): `utils.inverse` fails with `ValueError` on the
invertible permutation matrix `[[0,1,0],[0,0,1],[1,0,0]]` modulo 5.
The pivot search (utils.py:52-54) tests `a[i][j]` — an entry of the
current *row* `i` — instead of `a[j][i]`, so at `i = 0` it swaps rows 0
and 1, leaving `a[0][0] = 0`, and `pow(0, -1, 5)` inside `eliminate`
raises.  The other two conjuncts exhibit a two-sided inverse modulo 5,
so the matrix is not singular and the claimed "raises iff singular"
equivalence fails. -/
theorem C9_inverse_pivot_bug :
    inverse [[0, 1, 0], [0, 0, 1], [1, 0, 0]] 5 = none ∧
    matMulMod 5 [[0, 1, 0], [0, 0, 1], [1, 0, 0]] [[0, 0, 1], [1, 0, 0], [0, 1, 0]] =
      idMat 3 ∧
    matMulMod 5 [[0, 0, 1], [1, 0, 0], [0, 1, 0]] [[0, 1, 0], [0, 0, 1], [1, 0, 0]] =
      idMat 3 :=
  ⟨by decide, by decide, by decide⟩

/-! ## C8: which peers `start_clique` dials -/

/-- The list of peer indices toward which `TallierManager.start_clique`
initiates outbound connections (mpc_manager.py:239-241):
`for index, destination in enumerate(wanted_talliers): if index != self_id:
asyncio.ensure_future(self._connect(...))`. -/
def start_clique_dials (peerCount self_id : Nat) : List Nat :=
  (List.range peerCount).filter (fun i => i != self_id)

/-- Counterexample to C8 as stated: with two talliers and `self_id = 0`,
`start_clique` dials peer 1, whose index is greater than `self_id` —
outbound dials are not restricted to lower-indexed peers. -/
theorem C8_counterexample :
    start_clique_dials 2 0 = [1] ∧ ¬(1 < 0) :=
  ⟨by decide, by decide⟩

/-- C8 (amended): `start_clique` initiates an outbound dial toward
exactly the peers whose index differs from `self_id` — both lower and
higher indices; only the self slot is skipped.  (Duplicate connections
are resolved later by closing the late one.) -/
theorem C8_start_clique_dials_all (peerCount self_id i : Nat) :
    i ∈ start_clique_dials peerCount self_id ↔ i < peerCount ∧ i ≠ self_id := by
  rw [start_clique_dials, List.mem_filter, List.mem_range, bne_iff_ne]

/-! ## C7: the vector channel `write` framing -/

/-- Big-endian 4-byte encoding of a 32-bit value (`>I`). -/
def be32 (v : Nat) : List Nat :=
  [v / 2 ^ 24 % 256, v / 2 ^ 16 % 256, v / 2 ^ 8 % 256, v % 256]

/-- `MultiTallier.write` (mpc_manager.py:107-109):
`pack('>I' + self.size * 'I', msgid, *values)`.  `struct.pack` with that
format accepts exactly `size` values, each in `[0, 2^32)`; any other
argument count (or an out-of-range value) raises `struct.error`,
modelled as `none`. -/
def MultiTallier_write (size msgid : Nat) (values : List Nat) : Option (List Nat) :=
  if values.length = size ∧ msgid < 2 ^ 32 ∧ ∀ v ∈ values, v < 2 ^ 32 then
    some (be32 msgid ++ values.flatMap be32)
  else none

theorem bind_be32_length : ∀ l : List Nat, (l.flatMap be32).length = 4 * l.length
  | [] => rfl
  | a :: l => by
    rw [List.flatMap_cons, List.length_append, bind_be32_length l]
    simp [be32]
    omega

/-- Counterexample to C7 as stated: the values are neither zero-padded
nor truncated by `write` — a tuple shorter or longer than `S` makes
`struct.pack` raise instead of producing a `4 + 4S`-byte frame. -/
theorem C7_counterexample :
    MultiTallier_write 2 0 [] = none ∧ MultiTallier_write 2 0 [1, 2, 3] = none :=
  ⟨by decide, by decide⟩

/-- C7 (amended): `write(msgid, values)` serializes a frame of exactly
`4 + 4*S` bytes when given exactly `S` in-range values; for any tuple
whose length differs from `S` the serialization fails (`struct.error`).
The zero-padding to `S` entries happens in `MpcValidation.exchange`
(mpc.py:289) before `write` is called, and the truncation happens on the
reading side (mpc.py:290), not in `write`. -/
theorem C7_write_frame (size msgid : Nat) (values : List Nat)
    (hlen : values.length = size) (hmsg : msgid < 2 ^ 32)
    (hv : ∀ v ∈ values, v < 2 ^ 32) :
    MultiTallier_write size msgid values = some (be32 msgid ++ values.flatMap be32) ∧
    (be32 msgid ++ values.flatMap be32).length = 4 + 4 * size ∧
    ∀ values' : List Nat, values'.length ≠ size →
      MultiTallier_write size msgid values' = none := by
  refine ⟨?_, ?_, ?_⟩
  · rw [MultiTallier_write, if_pos ⟨hlen, hmsg, hv⟩]
  · rw [List.length_append, bind_be32_length, hlen]
    rfl
  · intro values' hne
    rw [MultiTallier_write, if_neg (fun h => hne h.1)]

/-- Witness for C7: a frame with `S = 2`. -/
theorem C7_witness :
    MultiTallier_write 2 7 [1, 2] = some (be32 7 ++ [1, 2].flatMap be32) ∧
    (be32 7 ++ [1, 2].flatMap be32).length = 4 + 4 * 2 ∧
    ∀ values' : List Nat, values'.length ≠ 2 → MultiTallier_write 2 7 values' = none :=
  C7_write_frame 2 7 [1, 2] (by decide) (by decide) (by decide)

/-! ## C5: the `is_zero` exponentiation loop -/

/-- The loop of `MpcWinner.is_zero` (mpc.py:237-245) at the level of the
shared secret: by C2 each `multiply` call multiplies the underlying
values modulo `p`, so the loop's plaintext effect is
`while n > 0: (if n % 2 == 1: result = result * a % p); result = result
* result % p; n = n // 2`.  `fuel` bounds the iteration count (the loop
runs at most `log2(n) + 1 ≤ n` times for the initial `n = p - 1`). -/
def isZeroGo (p : Nat) : (fuel n result a : Nat) → Nat
  | 0, _, r, _ => r
  | fuel + 1, n, r, a =>
    if n = 0 then r
    else isZeroGo p fuel (n / 2)
      ((if n % 2 = 1 then r * a % p else r) * (if n % 2 = 1 then r * a % p else r) % p) a

/-- `MpcWinner.is_zero` (mpc.py:237-245): run the loop on `n = p - 1`
starting from `result = 1`, then return `(p + 1 - result) % p`
(the source's `1 - result` in the field). -/
def is_zero (p a : Nat) : Nat := (p + 1 - isZeroGo p (p - 1) (p - 1) 1 a) % p

/-- C5 (code bug): at `p = 5`, `a = 2` the loop computes `a^2 = 4`
(because it squares the accumulated `result` after every step, its
exponent is `2 * bitreverse(p - 1)`, not `p - 1`), so `is_zero` returns
`(5 + 1 - 4) % 5 = 2` — not the claimed `0` for a non-zero input, and
not `1 - a^(p-1) = (5 + 1 - 2^4 % 5) % 5 = 0` that the code's own
comment `# result = a ** (p - 1) mod p` promises. -/
theorem C5_is_zero_bug :
    is_zero 5 2 = 2 ∧ (5 + 1 - 2 ^ 4 % 5) % 5 = 0 ∧ is_zero 5 2 ≠ 0 :=
  ⟨by decide, by decide, by decide⟩

/-! ## C4: the `validate_maximin` dispatch -/

/-- Parameters (beyond `self`) accepted by
`MpcValidation.__validate_condorcer` (mpc.py:364): `(msgbase, Q)`. -/
def validateCondorcerParamCount : Nat := 2

/-- Positional arguments (beyond `self`) passed by `validate_maximin`
(mpc.py:435): `(msgbase, votes, q_m, True)`. -/
def validateMaximinArgCount : Nat := 4

/-- The `gamma` helper of `validate_maximin` (mpc.py:428-431). -/
def maximinGamma (M : Nat) (votes : List Nat) (m1 m2 : Nat) : Nat :=
  if m1 = m2 then 0 else votes.getD (m2 - m1 - 1 + m1 * M - m1 * (m1 + 1) / 2) 0

/-- The `q_m` tuple computed by `validate_maximin` (mpc.py:434). -/
def maximinQm (p M : Nat) (votes : List Nat) : List Nat :=
  (List.range M).map (fun m1 =>
    ((∑ m2 in Finset.range M,
      if m2 < m1 then maximinGamma M votes m2 m1 else maximinGamma M votes m1 m2) +
        M - m1) % p)

/-- `MpcValidation.validate_maximin` (mpc.py:427-435): it computes `q_m`
and then evaluates `self.__validate_condorcer(msgbase, votes, q_m,
True)` — four positional arguments for a method accepting two — so
Python raises `TypeError` before any MPC step runs.  The guarded branch
(which would run the shared Condorcet validation) is dead code, since
the argument count can never match. -/
def validate_maximin (p M msgbase : Nat) (votes : List Nat) : Except Unit (List Nat × Bool) :=
  if validateMaximinArgCount = validateCondorcerParamCount then
    Except.ok (maximinQm p M votes, true)
  else Except.error ()

/-- C4 (code bug): `validate_maximin` raises `TypeError` on every input
(the call at mpc.py:435 passes 4 arguments to the 2-parameter
`__validate_condorcer`), so it never performs the shared Condorcet
validation and never returns a boolean.  The final conjunct shows the
local `q_m` data preparation itself succeeds on a concrete ballot. -/
theorem C4_validate_maximin_type_error :
    (∀ p M msgbase : Nat, ∀ votes : List Nat,
      validate_maximin p M msgbase votes = Except.error ()) ∧
    validateMaximinArgCount ≠ validateCondorcerParamCount ∧
    maximinQm 5 3 [1, 1, 4] = [0, 2, 1] :=
  ⟨fun _ _ _ _ => rfl, by decide, by decide⟩

/-! ## C6: the per-msgid inbound demultiplexer

`Tallier.read` / `Tallier.receive_loop` (mpc_manager.py:45-69) keep a
map `queue : msgid -> list-of-payloads | waiter-future`; `MultiTallier`
(mpc_manager.py:96-120) is identical with tuple payloads, so the payload
type is a parameter `α` here.  An absent key is `none`; a list entry is
`DemuxEntry.queued`; a pending future is `DemuxEntry.waiting`. -/

inductive DemuxEntry (α : Type) where
  | queued : List α → DemuxEntry α
  | waiting : DemuxEntry α

def DemuxState (α : Type) := Nat → Option (DemuxEntry α)

def demuxUpdate {α : Type} (s : DemuxState α) (m : Nat) (e : Option (DemuxEntry α)) :
    DemuxState α :=
  fun m' => if m' = m then e else s m'

/-- Outcome of one `read` call: a payload, a suspension on a fresh
waiter, or an unreachable-state error (`pop` on an empty list /
`len(fut)` on a future, which would raise). -/
inductive ReadOut (α : Type) where
  | value : α → ReadOut α
  | wait : ReadOut α
  | error : ReadOut α

/-- One frame arriving in `receive_loop` (mpc_manager.py:62-67):
`a = queue.setdefault(msgid, [])`; if `a` is a list the payload is
appended, otherwise the future is popped and completed.  The second
component is the payload handed to a completed waiter. -/
def demuxArrive {α : Type} (s : DemuxState α) (m : Nat) (x : α) : DemuxState α × Option α :=
  match s m with
  | none => (demuxUpdate s m (some (DemuxEntry.queued [x])), none)
  | some (DemuxEntry.queued l) => (demuxUpdate s m (some (DemuxEntry.queued (l ++ [x]))), none)
  | some DemuxEntry.waiting => (demuxUpdate s m none, some x)

/-- One `read(msgid)` call (mpc_manager.py:45-54): pop the oldest queued
payload — removing the map entry when the list would empty — or install
a waiter. -/
def demuxRead {α : Type} (s : DemuxState α) (m : Nat) : DemuxState α × ReadOut α :=
  match s m with
  | some (DemuxEntry.queued (a :: b :: rest)) =>
      (demuxUpdate s m (some (DemuxEntry.queued (b :: rest))), ReadOut.value a)
  | some (DemuxEntry.queued [a]) => (demuxUpdate s m none, ReadOut.value a)
  | some (DemuxEntry.queued []) => (demuxUpdate s m none, ReadOut.error)
  | some DemuxEntry.waiting => (s, ReadOut.error)
  | none => (demuxUpdate s m (some DemuxEntry.waiting), ReadOut.wait)

/-- The queued payloads at a msgid (empty for an absent entry or a
waiter). -/
def queueAt {α : Type} (s : DemuxState α) (m : Nat) : List α :=
  match s m with
  | some (DemuxEntry.queued l) => l
  | _ => []

/-- Deliver a sequence of frames to one msgid, in order. -/
def demuxDeliver {α : Type} (s : DemuxState α) (m : Nat) (xs : List α) : DemuxState α :=
  xs.foldl (fun st x => (demuxArrive st m x).1) s

/-- `k` successive reads of one msgid, collecting the returned payloads
(stopping if a read does not return a payload). -/
def demuxReadAll {α : Type} : DemuxState α → Nat → Nat → DemuxState α × List α
  | s, _, 0 => (s, [])
  | s, m, k + 1 =>
    match demuxRead s m with
    | (s1, ReadOut.value a) =>
        ((demuxReadAll s1 m k).1, a :: (demuxReadAll s1 m k).2)
    | (s1, _) => (s1, [])

theorem demuxUpdate_self {α : Type} (s : DemuxState α) (m : Nat) (e : Option (DemuxEntry α)) :
    demuxUpdate s m e m = e := by
  rw [demuxUpdate, if_pos rfl]

theorem demuxUpdate_ne {α : Type} (s : DemuxState α) (m : Nat) (e : Option (DemuxEntry α))
    {m' : Nat} (h : m' ≠ m) : demuxUpdate s m e m' = s m' := by
  rw [demuxUpdate, if_neg h]

theorem demuxArrive_ne {α : Type} (s : DemuxState α) (m : Nat) (x : α) {m' : Nat}
    (h : m' ≠ m) : (demuxArrive s m x).1 m' = s m' := by
  rcases hsm : s m with - | e
  · simp only [demuxArrive, hsm, demuxUpdate_ne _ _ _ h]
  · cases e with
    | queued l => simp only [demuxArrive, hsm, demuxUpdate_ne _ _ _ h]
    | waiting => simp only [demuxArrive, hsm, demuxUpdate_ne _ _ _ h]

theorem demuxRead_ne {α : Type} (s : DemuxState α) (m : Nat) {m' : Nat} (h : m' ≠ m) :
    (demuxRead s m).1 m' = s m' := by
  rcases hsm : s m with - | e
  · simp only [demuxRead, hsm, demuxUpdate_ne _ _ _ h]
  · cases e with
    | queued l =>
      match l with
      | [] => simp only [demuxRead, hsm, demuxUpdate_ne _ _ _ h]
      | [a] => simp only [demuxRead, hsm, demuxUpdate_ne _ _ _ h]
      | a :: b :: rest => simp only [demuxRead, hsm, demuxUpdate_ne _ _ _ h]
    | waiting => simp only [demuxRead, hsm]

theorem demuxDeliver_ne {α : Type} :
    ∀ (xs : List α) (s : DemuxState α) (m : Nat) {m' : Nat}, m' ≠ m →
      demuxDeliver s m xs m' = s m'
  | [], _, _, _, _ => rfl
  | x :: xs, s, m, m', h => by
    rw [demuxDeliver, List.foldl_cons]
    have := demuxDeliver_ne xs ((demuxArrive s m x).1) m h
    rw [demuxDeliver] at this
    rw [this, demuxArrive_ne s m x h]

theorem demuxReadAll_congr {α : Type} :
    ∀ (k : Nat) (s s' : DemuxState α) (m : Nat), s m = s' m →
      (demuxReadAll s m k).2 = (demuxReadAll s' m k).2
  | 0, _, _, _, _ => rfl
  | k + 1, s, s', m, h => by
    rcases hsm : s' m with - | e
    · simp only [demuxReadAll, demuxRead, h, hsm]
    · cases e with
      | queued l =>
        match l with
        | [] => simp only [demuxReadAll, demuxRead, h, hsm]
        | [a] =>
          have heq : demuxUpdate s m none m = demuxUpdate s' m none m := by
            rw [demuxUpdate_self, demuxUpdate_self]
          simp only [demuxReadAll, demuxRead, h, hsm,
            demuxReadAll_congr k _ _ m heq]
        | a :: b :: rest =>
          have heq : demuxUpdate s m (some (DemuxEntry.queued (b :: rest))) m =
              demuxUpdate s' m (some (DemuxEntry.queued (b :: rest))) m := by
            rw [demuxUpdate_self, demuxUpdate_self]
          simp only [demuxReadAll, demuxRead, h, hsm,
            demuxReadAll_congr k _ _ m heq]
      | waiting => simp only [demuxReadAll, demuxRead, h, hsm]

theorem demuxDeliver_at {α : Type} :
    ∀ (xs : List α) (s : DemuxState α) (m : Nat) (l : List α),
      (s m = some (DemuxEntry.queued l) ∨ (l = [] ∧ s m = none)) →
      (demuxDeliver s m xs m = some (DemuxEntry.queued (l ++ xs)) ∨
        (l ++ xs = [] ∧ demuxDeliver s m xs m = none))
  | [], s, m, l, h => by
    rcases h with h | ⟨hl, h⟩
    · left; rw [demuxDeliver, List.foldl_nil, h, List.append_nil]
    · right; rw [hl]; exact ⟨rfl, by rw [demuxDeliver, List.foldl_nil, h]⟩
  | x :: xs, s, m, l, h => by
    rw [demuxDeliver, List.foldl_cons]
    have harr : (demuxArrive s m x).1 m = some (DemuxEntry.queued (l ++ [x])) := by
      rcases h with h | ⟨hl, h⟩
      · simp only [demuxArrive, h, demuxUpdate_self]
      · subst hl
        simp only [demuxArrive, h, demuxUpdate_self, List.nil_append]
    have := demuxDeliver_at xs ((demuxArrive s m x).1) m (l ++ [x]) (Or.inl harr)
    rw [demuxDeliver] at this
    rcases this with h2 | ⟨h2, h3⟩
    · left
      rw [h2, List.append_assoc]
      rfl
    · exact absurd h2 (by simp)

theorem demuxReadAll_succ {α : Type} (s : DemuxState α) (m k : Nat) (a : α) (l : List α)
    (h : s m = some (DemuxEntry.queued (a :: l))) :
    (demuxReadAll s m (k + 1)).2 = a :: (demuxReadAll ((demuxRead s m).1) m k).2 := by
  match l with
  | [] => simp only [demuxReadAll, demuxRead, h]
  | b :: l2 => simp only [demuxReadAll, demuxRead, h]

theorem demuxReadAll_queued {α : Type} :
    ∀ (l : List α) (s : DemuxState α) (m : Nat),
      (s m = some (DemuxEntry.queued l) ∨ (l = [] ∧ s m = none)) →
      (demuxReadAll s m l.length).2 = l
  | [], _, _, _ => rfl
  | a :: rest, s, m, h => by
    rcases h with h | ⟨hl, _⟩
    · have hstep := demuxReadAll_succ s m rest.length a rest h
      have hrec : ((demuxRead s m).1 m = some (DemuxEntry.queued rest) ∨
          (rest = [] ∧ (demuxRead s m).1 m = none)) := by
        match rest with
        | [] => exact Or.inr ⟨rfl, by simp only [demuxRead, h, demuxUpdate_self]⟩
        | b :: rest2 => exact Or.inl (by simp only [demuxRead, h, demuxUpdate_self])
      have ih := demuxReadAll_queued rest _ m hrec
      rw [List.length_cons, hstep, ih]
    · exact absurd hl (by simp)

/-- C6: the inbound demultiplexer is strict FIFO per msgid and
independent across msgids.  (i) a frame arriving onto a waiter completes
it and removes the entry; (ii) otherwise the payload is appended (a
fresh singleton list for an absent key); (iii) `read` pops the oldest
payload, removing the entry when it empties, and installs a waiter on an
absent key; (iv) every operation leaves all other msgids untouched, and
reads depend only on their own msgid's state; (v) delivering frames and
then reading returns exactly `queued ++ delivered` in arrival order. -/
theorem C6_demux_fifo {α : Type} :
    (∀ (s : DemuxState α) m x, s m = some DemuxEntry.waiting →
      demuxArrive s m x = (demuxUpdate s m none, some x)) ∧
    (∀ (s : DemuxState α) m x l, s m = some (DemuxEntry.queued l) →
      demuxArrive s m x = (demuxUpdate s m (some (DemuxEntry.queued (l ++ [x]))), none)) ∧
    (∀ (s : DemuxState α) m x, s m = none →
      demuxArrive s m x = (demuxUpdate s m (some (DemuxEntry.queued [x])), none)) ∧
    (∀ (s : DemuxState α) m a rest, s m = some (DemuxEntry.queued (a :: rest)) →
      (demuxRead s m).2 = ReadOut.value a ∧
      (demuxRead s m).1 m =
        (if rest.isEmpty then none else some (DemuxEntry.queued rest))) ∧
    (∀ (s : DemuxState α) m, s m = none →
      demuxRead s m = (demuxUpdate s m (some DemuxEntry.waiting), ReadOut.wait)) ∧
    (∀ (s : DemuxState α) m x m', m' ≠ m → (demuxArrive s m x).1 m' = s m') ∧
    (∀ (s : DemuxState α) m m', m' ≠ m → (demuxRead s m).1 m' = s m') ∧
    (∀ (s : DemuxState α) m xs m', m' ≠ m → demuxDeliver s m xs m' = s m') ∧
    (∀ (s s' : DemuxState α) m k, s m = s' m →
      (demuxReadAll s m k).2 = (demuxReadAll s' m k).2) ∧
    (∀ (s : DemuxState α) m xs, s m = some (DemuxEntry.queued (queueAt s m)) ∨ s m = none →
      (demuxReadAll (demuxDeliver s m xs) m (queueAt s m ++ xs).length).2 =
        queueAt s m ++ xs) := by
  refine ⟨?_, ?_, ?_, ?_, ?_, ?_, ?_, ?_, ?_, ?_⟩
  · intro s m x h
    simp only [demuxArrive, h]
  · intro s m x l h
    simp only [demuxArrive, h]
  · intro s m x h
    simp only [demuxArrive, h]
  · intro s m a rest h
    match rest with
    | [] =>
      exact ⟨by simp only [demuxRead, h],
        by simp [demuxRead, h, demuxUpdate_self]⟩
    | b :: rest' =>
      exact ⟨by simp only [demuxRead, h],
        by simp [demuxRead, h, demuxUpdate_self]⟩
  · intro s m h
    simp only [demuxRead, h]
  · intro s m x m' h
    exact demuxArrive_ne s m x h
  · intro s m m' h
    exact demuxRead_ne s m h
  · intro s m xs m' h
    exact demuxDeliver_ne xs s m h
  · intro s s' m k h
    exact demuxReadAll_congr k s s' m h
  · intro s m xs h
    have hq : s m = some (DemuxEntry.queued (queueAt s m)) ∨
        (queueAt s m = [] ∧ s m = none) := by
      rcases h with h | h
      · exact Or.inl h
      · exact Or.inr ⟨by simp only [queueAt, h], h⟩
    have hdel := demuxDeliver_at xs s m (queueAt s m) hq
    refine demuxReadAll_queued (queueAt s m ++ xs) _ m ?_
    rcases hdel with h1 | ⟨h1, h2⟩
    · exact Or.inl h1
    · exact Or.inr ⟨h1, h2⟩

/-- Witness for C6: instantiate at concrete states and frames. -/
theorem C6_witness :
    (demuxReadAll (demuxDeliver (fun _ => (none : Option (DemuxEntry Nat))) 0 [10, 20, 30])
      0 (queueAt (fun _ => (none : Option (DemuxEntry Nat))) 0 ++ [10, 20, 30]).length).2 =
      queueAt (fun _ => (none : Option (DemuxEntry Nat))) 0 ++ [10, 20, 30] ∧
    demuxDeliver (fun _ => (none : Option (DemuxEntry Nat))) 0 [10, 20, 30] 1 =
      (fun _ => (none : Option (DemuxEntry Nat))) 1 ∧
    demuxArrive (fun _ => some (DemuxEntry.waiting : DemuxEntry Nat)) 3 7 =
      (demuxUpdate (fun _ => some (DemuxEntry.waiting : DemuxEntry Nat)) 3 none, some 7) :=
  ⟨(C6_demux_fifo (α := Nat)).2.2.2.2.2.2.2.2.2 (fun _ => none) 0 [10, 20, 30] (Or.inr rfl),
    (C6_demux_fifo (α := Nat)).2.2.2.2.2.2.2.1 (fun _ => none) 0 [10, 20, 30] 1
      (by decide),
    (C6_demux_fifo (α := Nat)).1 (fun _ => some DemuxEntry.waiting) 3 7 rfl⟩

/-! ## C10: arity requirements of the pairwise reduction in min/max

`MpcWinner.min` (mpc.py:227-235) and `MpcWinner.max` (mpc.py:217-225)
reduce a tuple pairwise: each pass combines `values[::2]` with
`values[1::2]` and appends `values[len(values)^1:]` (the unpaired last
element for odd length, nothing for even).  The network pair-combiner
(`__min` / `__max_index`) is abstracted as a function parameter; the
loop is run on fuel, for which the initial length suffices since each
pass shrinks any list of length at least 2. -/

def evens {α : Type} : List α → List α
  | [] => []
  | [a] => [a]
  | a :: _ :: rest => a :: evens rest

def odds {α : Type} : List α → List α
  | [] => []
  | [_] => []
  | _ :: b :: rest => b :: odds rest

/-- One pass of the reduction loop (mpc.py:222/233):
`tuple(map(comb, values[::2], values[1::2])) + values[len(values)^1:]`. -/
def minStep {α : Type} (f : α → α → α) (l : List α) : List α :=
  List.zipWith f (evens l) (odds l) ++ l.drop (l.length ^^^ 1)

/-- The `assert len(values) == 1; return values[0]` epilogue
(mpc.py:234-235); `none` models `AssertionError`. -/
def minFinish {α : Type} : List α → Option α
  | [x] => some x
  | _ => none

def minLoopGo {α : Type} (f : α → α → α) : Nat → List α → Option α
  | 0, l => minFinish l
  | fuel + 1, l => if 1 < l.length then minLoopGo f fuel (minStep f l) else minFinish l

/-- `MpcWinner.min` (mpc.py:227-235) with the pair combiner `__min`
abstracted as `f`: `assert len(values) > 1` (`none` models the
`AssertionError`), then the pairwise reduction, then the single
survivor. -/
def MpcWinner_min {α : Type} (f : α → α → α) (values : List α) : Option α :=
  if 1 < values.length then minLoopGo f values.length values else none

/-- `MpcWinner.max` (mpc.py:217-225) with the pair combiner
`__max_index` abstracted as `g` and the final `resolve` as `rf`: on at
most one vote it returns 0 immediately (no assertion); otherwise the
same pairwise reduction runs on `enumerate(votes)` and the surviving
index is resolved. -/
def MpcWinner_max {α : Type} (g : Nat × α → Nat × α → Nat × α) (rf : Nat → Nat)
    (votes : List α) : Option Nat :=
  if votes.length ≤ 1 then some 0
  else (minLoopGo g votes.length votes.enum).map (fun xi => rf xi.1)

/-- The per-candidate tuples built by `MpcWinner.maximin_scores`
(mpc.py:278): for each `m`, `gamma(m, m2)` for `m2` in `m+1..M-1`
followed by `p + 1 - gamma(m2, m)` for `m2` in `0..m-1` (over `Int`, as
Python subtraction does not truncate). -/
def maximinValues (p M : Nat) (votes : List Nat) : List (List Int) :=
  (List.range M).map (fun m =>
    ((List.range (M - (m + 1))).map (fun j => (maximinGamma M votes m (m + 1 + j) : Int))) ++
    ((List.range m).map (fun m2 => (p : Int) + 1 - (maximinGamma M votes m2 m : Int))))

/-- `MpcWinner.maximin_scores` (mpc.py:270-279): `self.min` mapped over
the per-candidate tuples; `none` if any `min` call raises. -/
def maximin_scores (f : Int → Int → Int) (p M : Nat) (votes : List Nat) :
    Option (List Int) :=
  mapMO (MpcWinner_min f) (maximinValues p M votes)

theorem two_mul_xor_one (k : Nat) : (2 * k) ^^^ 1 = 2 * k + 1 := by
  have h := Nat.xor_bit false k true 0
  simp [Nat.bit] at h
  simpa using h

theorem two_mul_add_one_xor_one (k : Nat) : (2 * k + 1) ^^^ 1 = 2 * k := by
  have h := Nat.xor_bit true k true 0
  simp [Nat.bit] at h
  simpa using h

theorem xor_one_eq (n : Nat) : n ^^^ 1 = if n % 2 = 0 then n + 1 else n - 1 := by
  rcases Nat.even_or_odd n with ⟨k, hk⟩ | ⟨k, hk⟩
  · subst hk
    rw [← two_mul, two_mul_xor_one]
    simp [Nat.mul_mod_right]
  · subst hk
    rw [two_mul_add_one_xor_one]
    have h2 : (2 * k + 1) % 2 = 1 := by omega
    simp [h2]

theorem evens_length {α : Type} : ∀ l : List α, (evens l).length = (l.length + 1) / 2
  | [] => by rw [evens]; simp
  | [_] => by rw [evens]; simp
  | _ :: _ :: rest => by
    have ih := evens_length rest
    simp only [evens, List.length_cons, ih]
    omega

theorem odds_length {α : Type} : ∀ l : List α, (odds l).length = l.length / 2
  | [] => by rw [odds]; simp
  | [_] => by rw [odds]; simp
  | _ :: _ :: rest => by
    have ih := odds_length rest
    simp only [odds, List.length_cons, ih]
    omega

theorem minStep_length {α : Type} (f : α → α → α) (l : List α) :
    (minStep f l).length = (l.length + 1) / 2 := by
  rw [minStep, List.length_append, List.length_zipWith, evens_length, odds_length,
    List.length_drop, xor_one_eq]
  by_cases h : l.length % 2 = 0
  · rw [if_pos h]; omega
  · rw [if_neg h]; omega

theorem minLoopGo_isSome {α : Type} (f : α → α → α) :
    ∀ (fuel : Nat) (l : List α), 1 ≤ l.length → l.length ≤ fuel + 1 →
      (minLoopGo f fuel l).isSome = true := by
  intro fuel
  induction fuel with
  | zero =>
    intro l h1 h2
    rcases l with - | ⟨x, l2⟩
    · simp at h1
    · rcases l2 with - | ⟨y, rest⟩
      · rfl
      · simp only [List.length_cons] at h2
        omega
  | succ fuel ih =>
    intro l h1 h2
    simp only [minLoopGo]
    by_cases h : 1 < l.length
    · rw [if_pos h]
      refine ih (minStep f l) ?_ ?_
      · rw [minStep_length]; omega
      · rw [minStep_length]; omega
    · rw [if_neg h]
      rcases l with - | ⟨x, l2⟩
      · simp at h1
      · rcases l2 with - | ⟨y, rest⟩
        · rfl
        · exact absurd (by simp only [List.length_cons]; omega) h

theorem mapMO_isSome {α β : Type} (f : α → Option β) :
    ∀ l : List α, (∀ a ∈ l, (f a).isSome = true) → (mapMO f l).isSome = true
  | [], _ => rfl
  | a :: l, h => by
    rw [mapMO]
    rcases hfa : f a with - | b
    · have := h a (List.mem_cons_self a l)
      rw [hfa] at this
      simp at this
    · rw [Option.some_bind]
      have hrest := mapMO_isSome f l (fun x hx => h x (List.mem_cons_of_mem a hx))
      rcases hr : mapMO f l with - | bs
      · rw [hr] at hrest; simp at hrest
      · rfl

theorem mapMO_eq_none {α β : Type} (f : α → Option β) :
    ∀ (l : List α) (a : α), a ∈ l → f a = none → mapMO f l = none
  | [], a, ha, _ => absurd ha (List.not_mem_nil a)
  | a0 :: l, a, ha, hfa => by
    rcases List.mem_cons.mp ha with h | h
    · subst h
      rw [mapMO, hfa]
      rfl
    · rw [mapMO]
      rcases hfa0 : f a0 with - | b
      · rfl
      · rw [Option.some_bind, mapMO_eq_none f l a h hfa]
        rfl

theorem maximinValues_mem_length (p M : Nat) (votes : List Nat) :
    ∀ l ∈ maximinValues p M votes, l.length = M - 1 := by
  intro l hl
  rw [maximinValues] at hl
  rcases List.mem_map.mp hl with ⟨m, hm, rfl⟩
  rw [List.length_append, List.length_map, List.length_map, List.length_range,
    List.length_range]
  have hlt : m < M := List.mem_range.mp hm
  omega

theorem maximinValues_length (p M : Nat) (votes : List Nat) :
    (maximinValues p M votes).length = M := by
  rw [maximinValues, List.length_map, List.length_range]

/-- C10: `MpcWinner.min` requires at least two input values — on every
tuple of length 0 or 1 its `assert len(values) > 1` fails
(`AssertionError`, modelled as `none`) instead of returning the sole
value, while `MpcWinner.max` returns 0 for such inputs; whenever the
tuple has length at least 2, all assertions of the reduction hold and a
single share is returned; and consequently `maximin_scores` (whose
per-candidate tuples have `M - 1` entries) succeeds on an election with
at least one candidate iff there are at least three candidates. -/
theorem C10_min_arity {α : Type} (f : α → α → α) (g : Nat × α → Nat × α → Nat × α)
    (rf : Nat → Nat) :
    (∀ values : List α, values.length ≤ 1 → MpcWinner_min f values = none) ∧
    (∀ values : List α, 2 ≤ values.length → (MpcWinner_min f values).isSome = true) ∧
    (∀ votes : List α, votes.length ≤ 1 → MpcWinner_max g rf votes = some 0) ∧
    (∀ (fI : Int → Int → Int) (p M : Nat) (votes : List Nat), 1 ≤ M →
      ((maximin_scores fI p M votes).isSome = true ↔ 3 ≤ M)) := by
  have hminSome : ∀ (β : Type) (fb : β → β → β) (values : List β), 2 ≤ values.length →
      (MpcWinner_min fb values).isSome = true := by
    intro β fb values h
    rw [MpcWinner_min, if_pos (by omega)]
    exact minLoopGo_isSome fb values.length values (by omega) (by omega)
  refine ⟨?_, hminSome α f, ?_, ?_⟩
  · intro values h
    rw [MpcWinner_min, if_neg (by omega)]
  · intro votes h
    rw [MpcWinner_max, if_pos h]
  · intro fI p M votes hM
    constructor
    · intro hsome
      by_contra h3
      have hne : maximinValues p M votes ≠ [] := by
        intro hnil
        have hlen := maximinValues_length p M votes
        rw [hnil] at hlen
        simp at hlen
        omega
      rcases List.exists_mem_of_ne_nil (maximinValues p M votes) hne with ⟨l, hl⟩
      have hlen := maximinValues_mem_length p M votes l hl
      have hnone : MpcWinner_min fI l = none := by
        rw [MpcWinner_min, if_neg (by omega)]
      rw [maximin_scores, mapMO_eq_none (MpcWinner_min fI) _ l hl hnone] at hsome
      simp at hsome
    · intro h3
      rw [maximin_scores]
      refine mapMO_isSome (MpcWinner_min fI) _ (fun l hl => ?_)
      have hlen := maximinValues_mem_length p M votes l hl
      exact hminSome Int fI l (by omega)

/-- Witness for C10: concrete instantiations — `min` on a singleton
fails, `min` on three values succeeds, `max` on a singleton returns 0,
and `maximin_scores` succeeds at `M = 3` but fails at `M = 2`. -/
theorem C10_witness :
    MpcWinner_min (fun a b : Nat => a + b) [5] = none ∧
    (MpcWinner_min (fun a b : Nat => a + b) [1, 2, 3]).isSome = true ∧
    MpcWinner_max (fun x _ : Nat × Nat => x) (fun i => i) [9] = some 0 ∧
    ((maximin_scores (fun a b : Int => a + b) 5 3 [1, 1, 4]).isSome = true ↔ 3 ≤ 3) ∧
    ((maximin_scores (fun a b : Int => a + b) 5 2 [1]).isSome = true ↔ 3 ≤ 2) :=
  ⟨(C10_min_arity (fun a b : Nat => a + b) (fun x _ => x) (fun i => i)).1 [5] (by decide),
    (C10_min_arity (fun a b : Nat => a + b) (fun x _ => x) (fun i => i)).2.1 [1, 2, 3]
      (by decide),
    (C10_min_arity (fun a b : Nat => a + b) (fun x _ => x) (fun i => i)).2.2.1 [9]
      (by decide),
    (C10_min_arity (fun a b : Nat => a + b) (fun x _ => x) (fun i => i)).2.2.2
      (fun a b => a + b) 5 3 [1, 1, 4] (by decide),
    (C10_min_arity (fun a b : Nat => a + b) (fun x _ => x) (fun i => i)).2.2.2
      (fun a b => a + b) 5 2 [1] (by decide)⟩

end SecureVoting
